import Mathlib

/-!
# Statistics propagation through `LogicalAggregate`

A shallow embedding of `src/optimizer/statistics/operator/propagate_aggregate.cpp`:
`StatisticsPropagator::TryExecuteAggregates` (the exact-count rewrite) and
`StatisticsPropagator::PropagateStatistics(LogicalAggregate &, ...)`.

Machine integers are natural numbers / integers with the wrap-around and the
range check written out.  Code that lives outside the embedded file (statistics
objects, the expression propagator, the executor, ...) is either a parameter or a
definition marked `Modelled from the spec:`.
-/

namespace DuckDB

/-! ## Data model -/

/-- Number of values of `idx_t` (an unsigned 64-bit integer): `2^64`. -/
def IDX_MODULUS : Nat := 18446744073709551616

/-- Largest `int64_t`: `2^63 - 1`. -/
def INT64_MAX : Nat := 9223372036854775807

/-- Identity of an output column: producing operator id and position. -/
structure ColumnBinding where
  table_index : Nat
  column_index : Nat
deriving DecidableEq, Repr

/-- Tag of a partition row count. -/
inductive CountType where
  | COUNT_EXACT
  | COUNT_APPROXIMATE
deriving DecidableEq, Repr

/-- Row count of one partition of a scan, as reported by the provider. -/
structure PartitionStatistics where
  row_start : Nat
  count : Nat
  count_type : CountType
deriving DecidableEq, Repr

/-- The logical types the embedded code names (`LogicalType::BIGINT`) and a few others. -/
inductive LogicalType where
  | BOOLEAN
  | INTEGER
  | BIGINT
  | VARCHAR
deriving DecidableEq, Repr

/-- Constant values; `Value::BIGINT` holds a signed 64-bit integer. -/
inductive Value where
  | BOOLEAN (b : Bool)
  | INTEGER (v : Int)
  | BIGINT (v : Int)
  | VARCHAR (s : String)
deriving DecidableEq, Repr

/-- The type of a constant value. -/
def Value.type : Value → LogicalType
  | .BOOLEAN _ => .BOOLEAN
  | .INTEGER _ => .INTEGER
  | .BIGINT _ => .BIGINT
  | .VARCHAR _ => .VARCHAR

/-- Exceptions the embedded code can raise. -/
inductive Exception where
  | InternalException (msg : String)
deriving DecidableEq, Repr

/-- Expression classes tested by the embedded code, plus the remaining ones. -/
inductive ExpressionClass where
  | BOUND_AGGREGATE
  | BOUND_COLUMN_REF
  | BOUND_CONSTANT
  | BOUND_FUNCTION
  | BOUND_CAST
  | BOUND_COMPARISON
  | BOUND_OPERATOR
  | BOUND_REF
deriving DecidableEq, Repr

/-- Classes of the expressions the embedded code never casts to a concrete class. -/
inductive OtherExpressionClass where
  | BOUND_FUNCTION
  | BOUND_CAST
  | BOUND_COMPARISON
  | BOUND_OPERATOR
  | BOUND_REF
deriving DecidableEq, Repr

/-- Bound expressions.  Every expression carries its alias; an aggregate call has
the name of its function, its arguments (`children`) and an optional filter clause. -/
inductive Expression where
  | BoundAggregateExpression (expr_alias : String) (function_name : String)
      (children : List Expression) (filter : Option Expression)
  | BoundColumnRefExpression (expr_alias : String) (binding : ColumnBinding)
  | BoundConstantExpression (expr_alias : String) (value : Value)
  | OtherExpression (expr_alias : String) (expression_class : OtherExpressionClass)
      (children : List Expression)

/-- The class tag of an expression (`Expression::GetExpressionClass`). -/
def Expression.GetExpressionClass : Expression → ExpressionClass
  | .BoundAggregateExpression _ _ _ _ => .BOUND_AGGREGATE
  | .BoundColumnRefExpression _ _ => .BOUND_COLUMN_REF
  | .BoundConstantExpression _ _ => .BOUND_CONSTANT
  | .OtherExpression _ .BOUND_FUNCTION _ => .BOUND_FUNCTION
  | .OtherExpression _ .BOUND_CAST _ => .BOUND_CAST
  | .OtherExpression _ .BOUND_COMPARISON _ => .BOUND_COMPARISON
  | .OtherExpression _ .BOUND_OPERATOR _ => .BOUND_OPERATOR
  | .OtherExpression _ .BOUND_REF _ => .BOUND_REF

/-- Modelled from the spec: `Expression::GetName` is declared outside the embedded
file; the spec calls what it returns "the original expression's output name/alias",
so it is the alias the expression carries. -/
def Expression.GetName : Expression → String
  | .BoundAggregateExpression a _ _ _ => a
  | .BoundColumnRefExpression a _ => a
  | .BoundConstantExpression a _ => a
  | .OtherExpression a _ _ => a

/-- The return type of a constant expression is the type of its value. -/
def Expression.constantType : Expression → Option LogicalType
  | .BoundConstantExpression _ v => some v.type
  | _ => none

/-- The query-execution context handed to the propagator (contents external). -/
structure ClientContext where
  id : Nat
deriving DecidableEq, Repr

/-- Argument of the partition-statistics provider: `GetPartitionStatsInput(function,
bind_data)`; the table function is represented by its name. -/
structure GetPartitionStatsInput where
  table_function : String
  table_function_data : Option Nat
deriving DecidableEq, Repr

/-- A scan function; `get_partition_stats` is the optional provider. -/
structure TableFunction where
  name : String
  get_partition_stats :
    Option (ClientContext → GetPartitionStatsInput → List PartitionStatistics)

/-- The table filters pushed into a scan, keyed by column index (filters external). -/
structure TableFilterSet where
  filters : List (Nat × Nat)
deriving DecidableEq, Repr

/-- A base scan (`LOGICAL_GET`). -/
structure LogicalGet where
  table_index : Nat
  function : TableFunction
  bind_data : Option Nat
  table_filters : TableFilterSet

/-- Modelled from the spec: `BaseStatistics` is declared outside the embedded file;
per the spec it offers a can-have-null predicate, a set-flag mutator and a clone,
its numeric and distinct bounds being of no concern here (kept as one number). -/
structure BaseStatistics where
  has_null : Bool
  bounds : Nat
deriving DecidableEq, Repr

/-- Modelled from the spec: the can-have-null predicate of `BaseStatistics`. -/
def BaseStatistics.CanHaveNull (s : BaseStatistics) : Bool := s.has_null

/-- Modelled from the spec: `Set(StatsInfo::CAN_HAVE_NULL_VALUES)`, the mutator
marking "may contain null". -/
def BaseStatistics.SetCanHaveNullValues (s : BaseStatistics) : BaseStatistics :=
  { s with has_null := true }

/-- Modelled from the spec: `ToUnique`, the clone-to-owned operation. -/
def BaseStatistics.ToUnique (s : BaseStatistics) : BaseStatistics := s

/-- Modelled from the spec: `NodeStatistics`, "currently just a row-count upper
bound". -/
structure NodeStatistics where
  max_cardinality : Nat
deriving DecidableEq, Repr

/-- Classification stored on an aggregate (`TupleDataValidityType`). -/
inductive TupleDataValidityType where
  | CAN_HAVE_NULL_VALUES
  | CANNOT_HAVE_NULL_VALUES
deriving DecidableEq, Repr

/-- Operator type tags. -/
inductive LogicalOperatorType where
  | LOGICAL_PROJECTION
  | LOGICAL_GET
  | LOGICAL_AGGREGATE_AND_GROUP_BY
  | LOGICAL_DUMMY_SCAN
  | LOGICAL_EXPRESSION_GET
  | LOGICAL_FILTER
  | LOGICAL_LIMIT
  | LOGICAL_COMPARISON_JOIN
  | LOGICAL_UNION
deriving DecidableEq, Repr

/-- Tags of the operators whose payload the embedded code never looks at. -/
inductive OtherOperatorType where
  | LOGICAL_FILTER
  | LOGICAL_LIMIT
  | LOGICAL_COMPARISON_JOIN
  | LOGICAL_UNION
deriving DecidableEq, Repr

/-- The fields of `LogicalAggregate` other than its child. -/
structure AggregateFields where
  group_index : Nat
  aggregate_index : Nat
  groups : List Expression
  expressions : List Expression
  grouping_sets : List (List Nat)
  group_stats : List (Option BaseStatistics)
  distinct_validity : TupleDataValidityType

/-- Logical plan operators.  A projection and an aggregate own exactly one child;
`LogicalExpressionGet` and the operators external to this file own a list. -/
inductive LogicalOperator where
  | get (g : LogicalGet)
  | projection (table_index : Nat) (expressions : List Expression) (child : LogicalOperator)
  | aggregate (fields : AggregateFields) (child : LogicalOperator)
  | dummyScan (table_index : Nat)
  | expressionGet (table_index : Nat) (expr_types : List LogicalType)
      (expressions : List (List Expression)) (children : List LogicalOperator)
  | other (type : OtherOperatorType) (children : List LogicalOperator)

/-- The type tag of an operator (`LogicalOperator::type`). -/
def LogicalOperator.type : LogicalOperator → LogicalOperatorType
  | .get _ => .LOGICAL_GET
  | .projection _ _ _ => .LOGICAL_PROJECTION
  | .aggregate _ _ => .LOGICAL_AGGREGATE_AND_GROUP_BY
  | .dummyScan _ => .LOGICAL_DUMMY_SCAN
  | .expressionGet _ _ _ _ => .LOGICAL_EXPRESSION_GET
  | .other .LOGICAL_FILTER _ => .LOGICAL_FILTER
  | .other .LOGICAL_LIMIT _ => .LOGICAL_LIMIT
  | .other .LOGICAL_COMPARISON_JOIN _ => .LOGICAL_COMPARISON_JOIN
  | .other .LOGICAL_UNION _ => .LOGICAL_UNION

/-- The aggregate operator `LogicalAggregate &aggr`: its fields and `children[0]`. -/
structure LogicalAggregate extends AggregateFields where
  child : LogicalOperator

/-- The plan node an aggregate is. -/
def LogicalAggregate.toOperator (aggr : LogicalAggregate) : LogicalOperator :=
  .aggregate aggr.toAggregateFields aggr.child

/-- The Statistics Map: `column_binding_map_t<unique_ptr<BaseStatistics>>`.  A binding
is absent (`none`), present with a null pointer (`some none`) or present with
statistics. -/
abbrev StatisticsMap := ColumnBinding → Option (Option BaseStatistics)

/-- Assignment `statistics_map[binding] = stats`. -/
def StatisticsMap.insert (m : StatisticsMap) (binding : ColumnBinding)
    (stats : Option BaseStatistics) : StatisticsMap :=
  fun b => if b = binding then some stats else m b

/-- State of a `StatisticsPropagator` during one pass.  `partition_stats_queries`
is a log of the calls made to partition-statistics providers, oldest first. -/
structure StatisticsPropagator where
  context : ClientContext
  statistics_map : StatisticsMap
  node_stats : Option NodeStatistics
  partition_stats_queries : List GetPartitionStatsInput

/-! ## `TryExecuteAggregates` -/

/-- Modelled from the spec: `NumericCast<int64_t>` is declared outside the embedded
file.  The spec asks for a 64-bit integer constant "equal to the total count", so the
conversion preserves the value; being the checked cast, it raises when the value is
outside the `int64_t` range instead of yielding another number. -/
def NumericCast (value : Nat) : Except Exception Int :=
  if value ≤ INT64_MAX then .ok (Int.ofNat value)
  else .error (.InternalException "Information loss on integer cast")

/-- Lines 19-22: skip any projections, following `children[0]`. -/
def skipProjections : LogicalOperator → LogicalOperator
  | .projection _ _ child => skipProjections child
  | op => op

/-- Lines 37-51: `true` when the loop over `aggr.expressions` runs to its end, that is
when every expression is a `count_star` aggregate call without a filter. -/
def allCountStar : List Expression → Bool
  | [] => true
  | .BoundAggregateExpression _ function_name _ filter :: rest =>
    if function_name ≠ "count_star" then false
    else if filter.isSome then false
    else allCountStar rest
  | _ :: _ => false

/-- Lines 59-66: the `idx_t` accumulation of the partition counts; `none` when a
partition is tagged `COUNT_APPROXIMATE` (the function returns). -/
def sumPartitionCounts : List PartitionStatistics → Nat → Option Nat
  | [], count => some count
  | stats :: rest, count =>
    if stats.count_type = .COUNT_APPROXIMATE then none
    else sumPartitionCounts rest ((count + stats.count) % IDX_MODULUS)

/-- Lines 68-76: one BIGINT constant per aggregate expression, aliased with the name
of the aggregate expression, and one `LogicalType::BIGINT` per expression. -/
def buildCountResults (count : Nat) :
    List Expression → Except Exception (List LogicalType × List Expression)
  | [] => .ok ([], [])
  | aggr_ref :: rest =>
    match NumericCast count with
    | .error e => .error e
    | .ok v =>
      match buildCountResults count rest with
      | .error e => .error e
      | .ok (types, count_results) =>
        .ok (LogicalType.BIGINT :: types,
          Expression.BoundConstantExpression aggr_ref.GetName (Value.BIGINT v) :: count_results)

/-- Outcome of `TryExecuteAggregates`: the propagator state, the content of the node
slot `node_ptr`, and the exception raised, if any. -/
structure TryExecuteResult where
  propagator : StatisticsPropagator
  node_ptr : LogicalOperator
  raised : Option Exception

/-- `StatisticsPropagator::TryExecuteAggregates(aggr, node_ptr)`, lines 13-84. -/
def TryExecuteAggregates (sp : StatisticsPropagator) (aggr : LogicalAggregate)
    (node_ptr : LogicalOperator) : TryExecuteResult :=
  if !aggr.groups.isEmpty then
    -- not possible with groups
    ⟨sp, node_ptr, none⟩
  else
    match skipProjections aggr.child with
    | .get get =>
      match get.function.get_partition_stats with
      | none =>
        -- GET does not support getting the partition stats
        ⟨sp, node_ptr, none⟩
      | some get_partition_stats =>
        if !get.table_filters.filters.isEmpty then
          -- we cannot do this if the GET has filters
          ⟨sp, node_ptr, none⟩
        else if !allCountStar aggr.expressions then
          ⟨sp, node_ptr, none⟩
        else
          let input : GetPartitionStatsInput := ⟨get.function.name, get.bind_data⟩
          let partition_stats := get_partition_stats sp.context input
          let sp1 : StatisticsPropagator :=
            { sp with partition_stats_queries := sp.partition_stats_queries ++ [input] }
          if partition_stats.isEmpty then
            -- no partition stats found
            ⟨sp1, node_ptr, none⟩
          else
            match sumPartitionCounts partition_stats 0 with
            | none =>
              -- we cannot get an exact count
              ⟨sp1, node_ptr, none⟩
            | some count =>
              match buildCountResults count aggr.expressions with
              | .error e => ⟨sp1, node_ptr, some e⟩
              | .ok (types, count_results) =>
                ⟨sp1,
                  .expressionGet aggr.aggregate_index types [count_results]
                    [.dummyScan aggr.group_index],
                  none⟩
    | _ =>
      -- child must be a LOGICAL_GET
      ⟨sp, node_ptr, none⟩

/-! ## `PropagateStatistics(LogicalAggregate &, ...)` -/

/-- The collaborators of the handler that live outside the embedded file.
`PropagateExpression` is the Expression Propagator, per the spec "a pure function of
expression + current Statistics Map"; `PropagateOperator` is the dispatching
`PropagateStatistics(unique_ptr<LogicalOperator> &)` applied to a child slot: it
yields the new propagator state, the content of the child slot and the child's
Node Statistics. -/
structure Collaborators where
  PropagateExpression : StatisticsMap → Expression → Option BaseStatistics
  PropagateOperator : StatisticsPropagator → LogicalOperator →
    StatisticsPropagator × LogicalOperator × Option NodeStatistics

/-- The call `vector::resize(n)`: keep the first `n` slots, fill up with null pointers. -/
def resizeStats (v : List (Option BaseStatistics)) (n : Nat) : List (Option BaseStatistics) :=
  v.take n ++ List.replicate (n - v.length) none

/-- What the loop over the groups modifies: the Statistics Map and `aggr.group_stats`. -/
structure GroupLoopState where
  statistics_map : StatisticsMap
  group_stats : List (Option BaseStatistics)

/-- Lines 93-107: the loop over `aggr.groups`, from position `group_idx` on. -/
def propagateGroups (PropagateExpression : StatisticsMap → Expression → Option BaseStatistics)
    (grouping_sets : List (List Nat)) (group_index : Nat) :
    List Expression → Nat → GroupLoopState → GroupLoopState
  | [], _, st => st
  | group :: rest, group_idx, st =>
    let stats := PropagateExpression st.statistics_map group
    let group_stats := st.group_stats.set group_idx (stats.map BaseStatistics.ToUnique)
    match stats with
    | none =>
      propagateGroups PropagateExpression grouping_sets group_index rest (group_idx + 1)
        ⟨st.statistics_map, group_stats⟩
    | some s =>
      if grouping_sets.length > 1 then
        -- the local object is flagged and then dropped by `continue`
        let _ := s.SetCanHaveNullValues
        propagateGroups PropagateExpression grouping_sets group_index rest (group_idx + 1)
          ⟨st.statistics_map, group_stats⟩
      else
        propagateGroups PropagateExpression grouping_sets group_index rest (group_idx + 1)
          ⟨st.statistics_map.insert ⟨group_index, group_idx⟩ (some s), group_stats⟩

/-- Lines 109-116: the loop over `aggr.expressions`, from position `aggregate_idx` on. -/
def propagateAggregates
    (PropagateExpression : StatisticsMap → Expression → Option BaseStatistics)
    (aggregate_index : Nat) : List Expression → Nat → StatisticsMap → StatisticsMap
  | [], _, m => m
  | expr :: rest, aggregate_idx, m =>
    match PropagateExpression m expr with
    | none => propagateAggregates PropagateExpression aggregate_index rest (aggregate_idx + 1) m
    | some s =>
      propagateAggregates PropagateExpression aggregate_index rest (aggregate_idx + 1)
        (m.insert ⟨aggregate_index, aggregate_idx⟩ (some s))

/-- Lines 130-143: the loop over the arguments of one aggregate call; the flag is
downgraded and the loop left at the first argument that is not a column reference or
whose binding has no statistics, a null pointer, or statistics that can have null. -/
def distinctValidityOfChildren (m : StatisticsMap) :
    List Expression → TupleDataValidityType → TupleDataValidityType
  | [], distinct_validity => distinct_validity
  | .BoundColumnRefExpression _ binding :: rest, distinct_validity =>
    match m binding with
    | some (some stats) =>
      if stats.CanHaveNull then .CAN_HAVE_NULL_VALUES
      else distinctValidityOfChildren m rest distinct_validity
    | _ => .CAN_HAVE_NULL_VALUES
  | _ :: _, _ => .CAN_HAVE_NULL_VALUES

/-- Lines 120-144: the loop over `aggr.expressions` computing `distinct_validity`. -/
def distinctValidityLoop (m : StatisticsMap) :
    List Expression → TupleDataValidityType → TupleDataValidityType
  | [], distinct_validity => distinct_validity
  | aggr_ref :: rest, distinct_validity =>
    if distinct_validity = .CAN_HAVE_NULL_VALUES then distinct_validity
    else
      match aggr_ref with
      | .BoundAggregateExpression _ _ children _ =>
        distinctValidityLoop m rest (distinctValidityOfChildren m children distinct_validity)
      | _ => .CAN_HAVE_NULL_VALUES

/-- Outcome of the handler: propagator state, the aggregate object as the handler
left it, the content of the node slot, the exception raised (if any) and the Node
Statistics returned. -/
structure PropagateResult where
  propagator : StatisticsPropagator
  aggr : LogicalAggregate
  node_ptr : LogicalOperator
  raised : Option Exception
  node_stats : Option NodeStatistics

/-- Lines 89-145 (Step A): child propagation, group and aggregate statistics, and
`distinct_validity`; yields the propagator state and the updated aggregate. -/
def propagateStepA (ext : Collaborators) (sp : StatisticsPropagator) (aggr : LogicalAggregate) :
    StatisticsPropagator × LogicalAggregate :=
  -- first propagate statistics in the child node
  let r := ext.PropagateOperator sp aggr.child
  let sp1 : StatisticsPropagator := { r.1 with node_stats := r.2.2 }
  -- handle the groups
  let st := propagateGroups ext.PropagateExpression aggr.grouping_sets aggr.group_index
    aggr.groups 0 ⟨sp1.statistics_map, resizeStats aggr.group_stats aggr.groups.length⟩
  -- propagate statistics in the aggregates
  let m := propagateAggregates ext.PropagateExpression aggr.aggregate_index aggr.expressions 0
    st.statistics_map
  -- check whether all inputs to the aggregate functions are valid
  let distinct_validity := distinctValidityLoop m aggr.expressions .CANNOT_HAVE_NULL_VALUES
  ({ sp1 with statistics_map := m },
   { aggr with child := r.2.1, group_stats := st.group_stats,
               distinct_validity := distinct_validity })

/-- `StatisticsPropagator::PropagateStatistics(LogicalAggregate &aggr, node_ptr)`, lines
86-153.  `aggr` is the node held by the slot `node_ptr`, so the slot is not a separate
argument: the handler hands the updated aggregate to `TryExecuteAggregates` as the
content of the slot. -/
def PropagateStatistics (ext : Collaborators) (sp : StatisticsPropagator)
    (aggr : LogicalAggregate) : PropagateResult :=
  let a := propagateStepA ext sp aggr
  -- after we propagate statistics - try to directly execute aggregates using statistics
  let t := TryExecuteAggregates a.1 a.2 a.2.toOperator
  match t.raised with
  | some e => ⟨t.propagator, a.2, t.node_ptr, some e, none⟩
  | none =>
    -- return std::move(node_stats)
    ⟨{ t.propagator with node_stats := none }, a.2, t.node_ptr, none, t.propagator.node_stats⟩

/-- The Statistics Map after the handler propagated into the child (line 89). -/
def mapAfterChild (ext : Collaborators) (sp : StatisticsPropagator) (aggr : LogicalAggregate) :
    StatisticsMap :=
  (ext.PropagateOperator sp aggr.child).1.statistics_map

/-- The Statistics Map at the start of iteration `g` of the loop over the groups: the
map after child propagation with the insertions of the groups before `g`. -/
def mapBeforeGroup (ext : Collaborators) (sp : StatisticsPropagator) (aggr : LogicalAggregate)
    (g : Nat) : StatisticsMap :=
  (propagateGroups ext.PropagateExpression aggr.grouping_sets aggr.group_index
    (aggr.groups.take g) 0
    ⟨mapAfterChild ext sp aggr, resizeStats aggr.group_stats aggr.groups.length⟩).statistics_map

/-- What the Expression Propagator returns for group `g` when line 94 calls it. -/
def groupStatsReturned (ext : Collaborators) (sp : StatisticsPropagator)
    (aggr : LogicalAggregate) (g : Nat) : Option BaseStatistics :=
  match aggr.groups[g]? with
  | none => none
  | some group => ext.PropagateExpression (mapBeforeGroup ext sp aggr g) group

/-- Following the spec's words (step 4 of Step A): an argument keeps the validity when
it is a direct column reference whose Column Binding has, in the Statistics Map, a
present statistics entry that cannot have null. -/
def argumentProvenNonNull (m : StatisticsMap) : Expression → Bool
  | .BoundColumnRefExpression _ binding =>
    match m binding with
    | some (some stats) => !stats.CanHaveNull
    | _ => false
  | _ => false

/-- Following the spec's words (design notes): the distinct validity as "a
short-circuiting fold over nested sequences (aggregates → arguments)": it is
`CANNOT_HAVE_NULL_VALUES` when every aggregate expression is an aggregate call all of
whose arguments are proven non-null, and `CAN_HAVE_NULL_VALUES` otherwise. -/
def distinctValidityFold (m : StatisticsMap) (expressions : List Expression) :
    TupleDataValidityType :=
  if expressions.all (fun e =>
      match e with
      | .BoundAggregateExpression _ _ children _ => children.all (argumentProvenNonNull m)
      | _ => false)
  then .CANNOT_HAVE_NULL_VALUES
  else .CAN_HAVE_NULL_VALUES

/-- An aggregate call with the given filter clause put on it; other expressions have
no filter clause and stay as they are. -/
def Expression.withFilter (e : Expression) (flt : Expression) : Expression :=
  match e with
  | .BoundAggregateExpression a fn children _ =>
    .BoundAggregateExpression a fn children (some flt)
  | other => other

/-- The list of expressions with a filter clause put on the one at position `i`. -/
def addFilterAt (flt : Expression) : List Expression → Nat → List Expression
  | [], _ => []
  | e :: rest, 0 => e.withFilter flt :: rest
  | e :: rest, i + 1 => e :: addFilterAt flt rest i

/-- The aggregate with a filter clause put on the aggregate call at position `i`
(every other field and every other expression unchanged). -/
def LogicalAggregate.withFilterAt (aggr : LogicalAggregate) (i : Nat) (flt : Expression) :
    LogicalAggregate :=
  { aggr with expressions := addFilterAt flt aggr.expressions i }

/-- The Statistics Map when the loop over the aggregates starts (line 109): the map
the loop over the groups leaves. -/
def mapAfterGroups (ext : Collaborators) (sp : StatisticsPropagator) (aggr : LogicalAggregate) :
    StatisticsMap :=
  (propagateGroups ext.PropagateExpression aggr.grouping_sets aggr.group_index aggr.groups 0
    ⟨mapAfterChild ext sp aggr, resizeStats aggr.group_stats aggr.groups.length⟩).statistics_map

/-- The Statistics Map at the start of iteration `a` of the loop over the aggregates. -/
def mapBeforeAggregate (ext : Collaborators) (sp : StatisticsPropagator)
    (aggr : LogicalAggregate) (a : Nat) : StatisticsMap :=
  propagateAggregates ext.PropagateExpression aggr.aggregate_index (aggr.expressions.take a) 0
    (mapAfterGroups ext sp aggr)

/-- What the Expression Propagator returns for the aggregate expression at position `a`
when line 110 calls it. -/
def aggregateStatsReturned (ext : Collaborators) (sp : StatisticsPropagator)
    (aggr : LogicalAggregate) (a : Nat) : Option BaseStatistics :=
  match aggr.expressions[a]? with
  | none => none
  | some expr => ext.PropagateExpression (mapBeforeAggregate ext sp aggr a) expr

/-- A chain of projections put on top of an operator; each projection is given by its
table index and its expressions, the outermost first. -/
def wrapProjections : List (Nat × List Expression) → LogicalOperator → LogicalOperator
  | [], op => op
  | (table_index, expressions) :: rest, op =>
    .projection table_index expressions (wrapProjections rest op)

/-- The aggregate with a chain of projections inserted between it and its child. -/
def LogicalAggregate.withProjections (aggr : LogicalAggregate)
    (projections : List (Nat × List Expression)) : LogicalAggregate :=
  { aggr with child := wrapProjections projections aggr.child }

/-- The Statistics Map with the entry of one column binding removed. -/
def StatisticsMap.erase (m : StatisticsMap) (binding : ColumnBinding) : StatisticsMap :=
  fun b => if b = binding then none else m b

/-- The Statistics Map with the statistics of one column binding made nullable. -/
def StatisticsMap.makeNullable (m : StatisticsMap) (binding : ColumnBinding) : StatisticsMap :=
  fun b =>
    if b = binding then (m b).map (fun entry => entry.map BaseStatistics.SetCanHaveNullValues)
    else m b

/-- The validity line 145 stores when the loops of lines 119-144 run against the
Statistics Map `m`. -/
def distinctValidityAgainst (m : StatisticsMap) (aggr : LogicalAggregate) :
    TupleDataValidityType :=
  distinctValidityLoop m aggr.expressions .CANNOT_HAVE_NULL_VALUES

/-! ## Column bindings and execution (outside the embedded file) -/

/-- Modelled from the spec: the Column Bindings `(id, 0), ..., (id, n - 1)` of an
operator producing `n` columns under operator id `id` ("producing operator id, column
position within that operator's output"). -/
def GenerateColumnBindings (table_index : Nat) (column_count : Nat) : List ColumnBinding :=
  (List.range column_count).map (fun i => ⟨table_index, i⟩)

/-- Modelled from the spec: `GetColumnBindings`, declared outside the embedded file.
An aggregate produces its groups under the group-output id followed by its aggregates
under the aggregate-output id; a constant-row producer and a projection produce their
columns under their own id; the zero-column source produces none.  The bindings of the
other operators are external (`none`). -/
def LogicalOperator.GetColumnBindings : LogicalOperator → Option (List ColumnBinding)
  | .aggregate fields _ =>
    some (GenerateColumnBindings fields.group_index fields.groups.length
      ++ GenerateColumnBindings fields.aggregate_index fields.expressions.length)
  | .expressionGet table_index expr_types _ _ =>
    some (GenerateColumnBindings table_index expr_types.length)
  | .projection table_index expressions _ =>
    some (GenerateColumnBindings table_index expressions.length)
  | .dummyScan _ => some []
  | .get _ => none
  | .other _ _ => none

/-- A row of values. -/
abbrev Row := List Value

/-- Modelled from the spec: evaluation of an expression on an input row.  A constant
evaluates to its value; every other expression is left to the external evaluator. -/
def Expression.evaluate (evalExternal : Expression → Row → Value) (e : Expression)
    (row : Row) : Value :=
  match e with
  | .BoundConstantExpression _ v => v
  | _ => evalExternal e row

/-- Modelled from the spec: the row-counting aggregate call ("a call to the
zero-argument row-counting aggregate with no associated filter clause"). -/
def Expression.isRowCount : Expression → Bool
  | .BoundAggregateExpression _ function_name _ none => function_name = "count_star"
  | _ => false

/-- Modelled from the spec: execution of a plan, which is outside the embedded file.
`scanRows` gives the rows a base scan produces.  A projection maps every input row to
one output row; a group-less aggregate of row-counting calls "produces exactly one
output row", each column holding the number of input rows as a BIGINT; the dummy scan
is the "single-row, zero-column source"; the constant-row producer fed from that
source materializes each of its expression rows once.  Everything else is external
(`none`). -/
def execute (scanRows : LogicalGet → List Row) (evalExternal : Expression → Row → Value) :
    LogicalOperator → Option (List Row)
  | .get g => some (scanRows g)
  | .projection _ expressions child =>
    (execute scanRows evalExternal child).map
      (fun rows => rows.map (fun row => expressions.map (fun e => e.evaluate evalExternal row)))
  | .aggregate fields child =>
    if fields.groups.isEmpty && fields.expressions.all Expression.isRowCount then
      (execute scanRows evalExternal child).map
        (fun rows => [fields.expressions.map (fun _ => Value.BIGINT (Int.ofNat rows.length))])
    else none
  | .dummyScan _ => some [[]]
  | .expressionGet _ _ expressions [.dummyScan _] =>
    some (expressions.map (fun exprs => exprs.map (fun e => e.evaluate evalExternal [])))
  | .expressionGet _ _ _ _ => none
  | .other _ _ => none

/-! ## Sample plans -/

/-- A scan function whose provider reports the given partition statistics. -/
def sampleFunction (stats : List PartitionStatistics) : TableFunction :=
  ⟨"seq_scan", some (fun _ _ => stats)⟩

/-- A scan of table `T` with the given partition statistics and table filters. -/
def sampleScan (stats : List PartitionStatistics) (filters : List (Nat × Nat)) : LogicalGet :=
  ⟨0, sampleFunction stats, some 7, ⟨filters⟩⟩

/-- The aggregate call `count(*)` under the given output name. -/
def countStar (name : String) : Expression :=
  .BoundAggregateExpression name "count_star" [] none

/-- A group-less aggregate with group-output id 1 and aggregate-output id 2. -/
def sampleAggregate (expressions : List Expression) (child : LogicalOperator) :
    LogicalAggregate :=
  { group_index := 1, aggregate_index := 2, groups := [], expressions := expressions,
    grouping_sets := [], group_stats := [],
    distinct_validity := .CAN_HAVE_NULL_VALUES, child := child }

/-- A propagator at the start of a pass: empty Statistics Map, no provider queried. -/
def samplePropagator : StatisticsPropagator := ⟨⟨0⟩, fun _ => none, none, []⟩

/-- Scenario `SELECT count(*) FROM T`, `T` having 1,000 exact rows. -/
def countOverExactScan : LogicalAggregate :=
  sampleAggregate [countStar "count_star()"]
    (.projection 5 [] (.get (sampleScan [⟨0, 1000, .COUNT_EXACT⟩] [])))

/-- Scenario `SELECT count(*) FROM T WHERE x > 5`, the filter pushed into the scan. -/
def countOverFilteredScan : LogicalAggregate :=
  sampleAggregate [countStar "count_star()"]
    (.get (sampleScan [⟨0, 1000, .COUNT_EXACT⟩] [(0, 5)]))

/-- Scenario of two partitions, 400 rows exact and 600 rows approximate. -/
def countOverApproximateScan : LogicalAggregate :=
  sampleAggregate [countStar "count_star()"]
    (.get (sampleScan [⟨0, 400, .COUNT_EXACT⟩, ⟨400, 600, .COUNT_APPROXIMATE⟩] []))

/-- A provider reporting one exact partition of `2^63` rows. -/
def countOverHugeScan : LogicalAggregate :=
  sampleAggregate [countStar "count_star()"]
    (.get (sampleScan [⟨0, 9223372036854775808, .COUNT_EXACT⟩] []))

/-- Two exact partitions of `2^63` rows each: their sum is `2^64`. -/
def countOverWrappingScan : LogicalAggregate :=
  sampleAggregate [countStar "count_star()"]
    (.get (sampleScan [⟨0, 9223372036854775808, .COUNT_EXACT⟩,
      ⟨9223372036854775808, 9223372036854775808, .COUNT_EXACT⟩] []))

/-- The rows of a table of 1,000 rows (their columns are of no concern). -/
def thousandRows : LogicalGet → List Row :=
  fun _ => List.replicate 1000 []

/-- An external evaluator for the sample plans. -/
def sampleEvaluator : Expression → Row → Value :=
  fun _ _ => Value.BOOLEAN false

/-- Two exact partitions of `2^63 - 1` rows and 1 row: their sum is `2^63`. -/
def countOverTwoPartitions : LogicalAggregate :=
  sampleAggregate [countStar "count_star()"]
    (.get (sampleScan [⟨0, 9223372036854775807, .COUNT_EXACT⟩,
      ⟨9223372036854775807, 1, .COUNT_EXACT⟩] []))

/-- Scenario `SELECT count(*) AS a, count(*) AS b FROM T`, `T` in partitions of 400 and
600 exact rows. -/
def twoCountsOverExactScan : LogicalAggregate :=
  sampleAggregate [countStar "a", countStar "b"]
    (.get (sampleScan [⟨0, 400, .COUNT_EXACT⟩, ⟨400, 600, .COUNT_EXACT⟩] []))

/-- Collaborators for the sample plans: child propagation records non-null statistics
for the column `(0, 0)` and nullable statistics for `(0, 1)`; the Expression Propagator
returns the statistics the map holds for a column reference and nothing otherwise. -/
def sampleCollaborators : Collaborators :=
  { PropagateExpression := fun m e =>
      match e with
      | .BoundColumnRefExpression _ binding =>
        match m binding with
        | some (some stats) => some stats
        | _ => none
      | _ => none,
    PropagateOperator := fun sp child =>
      ({ sp with statistics_map := fun b =>
          if b = ⟨0, 0⟩ then some (some ⟨false, 10⟩)
          else if b = ⟨0, 1⟩ then some (some ⟨true, 20⟩)
          else none },
        child, some ⟨1000⟩) }

/-- Scenario `SELECT sum(x) FROM T`, `x` the column `(0, 0)`. -/
def sumOverColumn : LogicalAggregate :=
  sampleAggregate
    [.BoundAggregateExpression "sum(x)" "sum" [.BoundColumnRefExpression "x" ⟨0, 0⟩] none]
    (.get (sampleScan [⟨0, 1000, .COUNT_EXACT⟩] []))

/-- A filter expression `y > 0`. -/
def sampleFilter : Expression :=
  .OtherExpression "(y > 0)" .BOUND_COMPARISON
    [.BoundColumnRefExpression "y" ⟨0, 1⟩, .BoundConstantExpression "0" (.INTEGER 0)]

/-- An aggregate grouping by the columns `(0, 0)` and `(0, 1)` under the given grouping
sets, with group-output id 1 and aggregate-output id 2. -/
def groupedAggregate (grouping_sets : List (List Nat)) : LogicalAggregate :=
  { group_index := 1, aggregate_index := 2,
    groups := [.BoundColumnRefExpression "x" ⟨0, 0⟩, .BoundColumnRefExpression "y" ⟨0, 1⟩],
    expressions := [countStar "count_star()"],
    grouping_sets := grouping_sets, group_stats := [],
    distinct_validity := .CAN_HAVE_NULL_VALUES,
    child := .get (sampleScan [⟨0, 1000, .COUNT_EXACT⟩] []) }

/-- Collaborators for a child that produces no row: child propagation leaves the map and
reports the row-count bound 0; the Expression Propagator returns non-null statistics for
an aggregate call and nothing otherwise. -/
def emptyChildCollaborators : Collaborators :=
  { PropagateExpression := fun _ e =>
      match e with
      | .BoundAggregateExpression _ _ _ _ => some ⟨false, 5⟩
      | _ => none,
    PropagateOperator := fun sp child => (sp, child, some ⟨0⟩) }

/-- A scan whose function exposes no partition-statistics provider. -/
def scanWithoutProvider : LogicalGet :=
  ⟨0, ⟨"read_csv", none⟩, some 7, ⟨[]⟩⟩

/-- Scenario `SELECT count(*) FROM E`, `E` an empty table whose scan has no provider. -/
def countOverEmptyScan : LogicalAggregate :=
  sampleAggregate [countStar "count_star()"] (.get scanWithoutProvider)

/-- The rows of an empty table. -/
def noRows : LogicalGet → List Row :=
  fun _ => []

/-- Scenario `SELECT count(*) FROM (SELECT ... FROM T LIMIT 10)`: the child of the
aggregate is not a scan. -/
def countOverLimit : LogicalAggregate :=
  sampleAggregate [countStar "count_star()"]
    (.other .LOGICAL_LIMIT [.get (sampleScan [⟨0, 1000, .COUNT_EXACT⟩] [])])

/-- Scenario `SELECT count(*), sum(x) FROM T`. -/
def countAndSum : LogicalAggregate :=
  sampleAggregate
    [countStar "count_star()",
     .BoundAggregateExpression "sum(x)" "sum" [.BoundColumnRefExpression "x" ⟨0, 0⟩] none]
    (.get (sampleScan [⟨0, 1000, .COUNT_EXACT⟩] []))

/-- Scenario `SELECT count(*) FROM T` with two more projections between the aggregate
and its child. -/
def countOverProjectedScan : LogicalAggregate :=
  countOverExactScan.withProjections
    [(8, [.BoundColumnRefExpression "x" ⟨0, 0⟩]), (9, [])]

/-- A Statistics Map holding non-null statistics for the column `(0, 0)` only. -/
def sampleMap : StatisticsMap :=
  fun b => if b = ⟨0, 0⟩ then some (some ⟨false, 10⟩) else none

/-! ## Lemmas on the loops of `TryExecuteAggregates` -/

/-- The loop of lines 37-51 runs to its end exactly when every expression is a
`count_star` aggregate call without a filter clause. -/
theorem allCountStar_iff (l : List Expression) :
    allCountStar l = true ↔
      ∀ e ∈ l, ∃ a c, e = Expression.BoundAggregateExpression a "count_star" c none := by
  induction l with
  | nil => simp [allCountStar]
  | cons e rest ih =>
    cases e with
    | BoundAggregateExpression a fn c f =>
      by_cases hfn : fn = "count_star"
      · cases f with
        | none => simp [allCountStar, hfn, ih]
        | some x => simp [allCountStar, hfn]
      · simp [allCountStar, hfn]
    | BoundColumnRefExpression a b => simp [allCountStar]
    | BoundConstantExpression a v => simp [allCountStar]
    | OtherExpression a k c => simp [allCountStar]

/-- The accumulation of lines 59-66 returns early exactly when some partition is
tagged approximate. -/
theorem sumPartitionCounts_eq_none_iff (l : List PartitionStatistics) (count : Nat) :
    sumPartitionCounts l count = none ↔ ∃ s ∈ l, s.count_type = CountType.COUNT_APPROXIMATE := by
  induction l generalizing count with
  | nil => simp [sumPartitionCounts]
  | cons s rest ih =>
    by_cases h : s.count_type = CountType.COUNT_APPROXIMATE
    · simp [sumPartitionCounts, h]
    · simp [sumPartitionCounts, h, ih]

/-- When every partition is exact the accumulation yields the sum of the counts
reduced modulo `2^64`. -/
theorem sumPartitionCounts_exact (l : List PartitionStatistics) (count : Nat)
    (hcount : count < IDX_MODULUS)
    (hexact : ∀ s ∈ l, s.count_type = CountType.COUNT_EXACT) :
    sumPartitionCounts l count
      = some ((count + (l.map PartitionStatistics.count).sum) % IDX_MODULUS) := by
  induction l generalizing count with
  | nil => simp [sumPartitionCounts, Nat.mod_eq_of_lt hcount]
  | cons s rest ih =>
    have hs : s.count_type = CountType.COUNT_EXACT := hexact s (List.mem_cons_self _ _)
    have hrest : ∀ t ∈ rest, t.count_type = CountType.COUNT_EXACT :=
      fun t ht => hexact t (List.mem_cons_of_mem _ ht)
    have hpos : 0 < IDX_MODULUS := by decide
    simp only [sumPartitionCounts, hs, List.map_cons, List.sum_cons]
    rw [if_neg (by decide), ih _ (Nat.mod_lt _ hpos) hrest]
    congr 1
    rw [Nat.add_mod, Nat.mod_mod, ← Nat.add_mod, Nat.add_assoc]

/-- The constants built by lines 68-76 when the count fits `int64_t`. -/
theorem buildCountResults_ok (count : Nat) (hcount : count ≤ INT64_MAX) (l : List Expression) :
    buildCountResults count l
      = .ok (List.replicate l.length LogicalType.BIGINT,
          l.map (fun e => Expression.BoundConstantExpression e.GetName
            (Value.BIGINT (Int.ofNat count)))) := by
  induction l with
  | nil => rfl
  | cons e rest ih =>
    simp [buildCountResults, NumericCast, hcount, ih, List.replicate_succ]

/-- With at least one aggregate expression and a count above `INT64_MAX`, line 71
raises. -/
theorem buildCountResults_error (count : Nat) (hcount : INT64_MAX < count) (e : Expression)
    (rest : List Expression) :
    buildCountResults count (e :: rest)
      = .error (.InternalException "Information loss on integer cast") := by
  simp [buildCountResults, NumericCast, Nat.not_le.mpr hcount]

/-- The body of `TryExecuteAggregates` from line 53 on, reached when every structural
precondition holds. -/
theorem TryExecuteAggregates_of_preconditions (sp : StatisticsPropagator)
    (aggr : LogicalAggregate) (node_ptr : LogicalOperator) (g : LogicalGet)
    (f : ClientContext → GetPartitionStatsInput → List PartitionStatistics)
    (hgroups : aggr.groups = []) (hscan : skipProjections aggr.child = .get g)
    (hprov : g.function.get_partition_stats = some f)
    (hfilters : g.table_filters.filters = [])
    (hcount : allCountStar aggr.expressions = true) :
    TryExecuteAggregates sp aggr node_ptr =
      (let input : GetPartitionStatsInput := ⟨g.function.name, g.bind_data⟩
       let sp1 : StatisticsPropagator :=
         { sp with partition_stats_queries := sp.partition_stats_queries ++ [input] }
       if (f sp.context input).isEmpty then ⟨sp1, node_ptr, none⟩
       else
         match sumPartitionCounts (f sp.context input) 0 with
         | none => ⟨sp1, node_ptr, none⟩
         | some count =>
           match buildCountResults count aggr.expressions with
           | .error e => ⟨sp1, node_ptr, some e⟩
           | .ok (types, count_results) =>
             ⟨sp1,
               .expressionGet aggr.aggregate_index types [count_results]
                 [.dummyScan aggr.group_index],
               none⟩) := by
  simp only [TryExecuteAggregates, hgroups, hscan, hprov, hfilters, hcount]
  simp

/-- Every return before line 53 leaves the slot and the propagator as they were. -/
theorem TryExecuteAggregates_of_failed_precondition (sp : StatisticsPropagator)
    (aggr : LogicalAggregate) (node_ptr : LogicalOperator)
    (h : aggr.groups ≠ [] ∨ (∀ g, skipProjections aggr.child ≠ .get g) ∨
      (∃ g, skipProjections aggr.child = .get g ∧
        (g.function.get_partition_stats = none ∨ g.table_filters.filters ≠ [])) ∨
      allCountStar aggr.expressions = false) :
    TryExecuteAggregates sp aggr node_ptr = ⟨sp, node_ptr, none⟩ := by
  unfold TryExecuteAggregates
  by_cases hg : aggr.groups = []
  · simp only [hg, List.isEmpty_nil, Bool.not_true, Bool.false_eq_true, if_false]
    rcases h with h | h | h | h
    · exact absurd hg h
    · split
      · next g' hs => exact absurd hs (h g')
      · rfl
    · obtain ⟨g, hs, hor⟩ := h
      rw [hs]
      rcases hor with hp | hfl
      · simp [hp]
      · cases hp : g.function.get_partition_stats with
        | none => simp [hp]
        | some f => simp [hp, hfl]
    · split
      · split
        · rfl
        · simp [h]
      · rfl
  · simp [hg]

/-- Started at `count = 0`, the accumulation over exact partitions yields their sum
reduced modulo `2^64`. -/
theorem sumPartitionCounts_zero_exact (l : List PartitionStatistics)
    (hexact : ∀ s ∈ l, s.count_type = CountType.COUNT_EXACT) :
    sumPartitionCounts l 0 = some ((l.map PartitionStatistics.count).sum % IDX_MODULUS) := by
  have h := sumPartitionCounts_exact l 0 (by decide) hexact
  simpa using h

/-- With every precondition met and a non-empty list of exact partitions whose `idx_t`
total fits `int64_t` (or with no aggregate expression at all), the slot receives the
constant-row producer built from that total. -/
theorem TryExecuteAggregates_replaces (sp : StatisticsPropagator)
    (aggr : LogicalAggregate) (node_ptr : LogicalOperator) (g : LogicalGet)
    (f : ClientContext → GetPartitionStatsInput → List PartitionStatistics)
    (hgroups : aggr.groups = []) (hscan : skipProjections aggr.child = .get g)
    (hprov : g.function.get_partition_stats = some f)
    (hfilters : g.table_filters.filters = [])
    (hcount : allCountStar aggr.expressions = true)
    (hne : f sp.context ⟨g.function.name, g.bind_data⟩ ≠ [])
    (hexact : ∀ s ∈ f sp.context ⟨g.function.name, g.bind_data⟩,
      s.count_type = CountType.COUNT_EXACT)
    (hfit : ((f sp.context ⟨g.function.name, g.bind_data⟩).map PartitionStatistics.count).sum
        % IDX_MODULUS ≤ INT64_MAX ∨ aggr.expressions = []) :
    TryExecuteAggregates sp aggr node_ptr =
      ⟨{ sp with partition_stats_queries :=
            sp.partition_stats_queries ++ [⟨g.function.name, g.bind_data⟩] },
        .expressionGet aggr.aggregate_index
          (List.replicate aggr.expressions.length LogicalType.BIGINT)
          [aggr.expressions.map (fun e => Expression.BoundConstantExpression e.GetName
            (Value.BIGINT (Int.ofNat
              (((f sp.context ⟨g.function.name, g.bind_data⟩).map
                PartitionStatistics.count).sum % IDX_MODULUS))))]
          [.dummyScan aggr.group_index],
        none⟩ := by
  rw [TryExecuteAggregates_of_preconditions sp aggr node_ptr g f hgroups hscan hprov hfilters
    hcount]
  have hemp : (f sp.context ⟨g.function.name, g.bind_data⟩).isEmpty = false := by
    cases hl : f sp.context ⟨g.function.name, g.bind_data⟩ with
    | nil => exact absurd hl hne
    | cons a l => rfl
  simp only [hemp, sumPartitionCounts_zero_exact _ hexact]
  rcases hfit with hfit | hnil
  · simp [buildCountResults_ok _ hfit]
  · simp [hnil, buildCountResults]

/-- With every precondition met, a list of exact partitions whose `idx_t` total exceeds
`INT64_MAX` and at least one aggregate expression, the checked cast of line 71 raises
and the slot keeps its content. -/
theorem TryExecuteAggregates_raises (sp : StatisticsPropagator)
    (aggr : LogicalAggregate) (node_ptr : LogicalOperator) (g : LogicalGet)
    (f : ClientContext → GetPartitionStatsInput → List PartitionStatistics)
    (hgroups : aggr.groups = []) (hscan : skipProjections aggr.child = .get g)
    (hprov : g.function.get_partition_stats = some f)
    (hfilters : g.table_filters.filters = [])
    (hcount : allCountStar aggr.expressions = true)
    (hexact : ∀ s ∈ f sp.context ⟨g.function.name, g.bind_data⟩,
      s.count_type = CountType.COUNT_EXACT)
    (hbig : INT64_MAX <
      ((f sp.context ⟨g.function.name, g.bind_data⟩).map PartitionStatistics.count).sum
        % IDX_MODULUS)
    (hexprs : aggr.expressions ≠ []) :
    TryExecuteAggregates sp aggr node_ptr =
      ⟨{ sp with partition_stats_queries :=
            sp.partition_stats_queries ++ [⟨g.function.name, g.bind_data⟩] },
        node_ptr, some (.InternalException "Information loss on integer cast")⟩ := by
  rw [TryExecuteAggregates_of_preconditions sp aggr node_ptr g f hgroups hscan hprov hfilters
    hcount]
  have hemp : (f sp.context ⟨g.function.name, g.bind_data⟩).isEmpty = false := by
    cases hl : f sp.context ⟨g.function.name, g.bind_data⟩ with
    | nil => rw [hl] at hbig; simp [INT64_MAX] at hbig
    | cons a l => rfl
  simp only [hemp, sumPartitionCounts_zero_exact _ hexact]
  cases hl : aggr.expressions with
  | nil => exact absurd hl hexprs
  | cons e rest => simp [buildCountResults_error _ hbig]

/-- With an approximate partition in the list the slot and only the query log change. -/
theorem TryExecuteAggregates_approximate (sp : StatisticsPropagator)
    (aggr : LogicalAggregate) (node_ptr : LogicalOperator) (g : LogicalGet)
    (f : ClientContext → GetPartitionStatsInput → List PartitionStatistics)
    (hscan : skipProjections aggr.child = .get g)
    (hprov : g.function.get_partition_stats = some f)
    (happrox : ∃ s ∈ f sp.context ⟨g.function.name, g.bind_data⟩,
      s.count_type = CountType.COUNT_APPROXIMATE) :
    (TryExecuteAggregates sp aggr node_ptr).node_ptr = node_ptr ∧
      (TryExecuteAggregates sp aggr node_ptr).raised = none := by
  by_cases hgroups : aggr.groups = []
  · by_cases hfilters : g.table_filters.filters = []
    · cases hcount : allCountStar aggr.expressions with
      | false =>
        rw [TryExecuteAggregates_of_failed_precondition sp aggr node_ptr
          (Or.inr (Or.inr (Or.inr hcount)))]
        exact ⟨rfl, rfl⟩
      | true =>
        rw [TryExecuteAggregates_of_preconditions sp aggr node_ptr g f hgroups hscan hprov
          hfilters hcount]
        have hnone := (sumPartitionCounts_eq_none_iff _ 0).mpr happrox
        simp only [hnone]
        split <;> exact ⟨rfl, rfl⟩
    · rw [TryExecuteAggregates_of_failed_precondition sp aggr node_ptr
        (Or.inr (Or.inr (Or.inl ⟨g, hscan, Or.inr hfilters⟩)))]
      exact ⟨rfl, rfl⟩
  · rw [TryExecuteAggregates_of_failed_precondition sp aggr node_ptr (Or.inl hgroups)]
    exact ⟨rfl, rfl⟩

/-- A count type that is not approximate is exact. -/
theorem CountType.exact_of_not_approximate (c : CountType)
    (h : c ≠ CountType.COUNT_APPROXIMATE) : c = CountType.COUNT_EXACT := by
  cases c with
  | COUNT_EXACT => rfl
  | COUNT_APPROXIMATE => exact absurd rfl h

/-- The four ways `TryExecuteAggregates` ends: a structural precondition fails (nothing
changes); the provider is queried and returns no partition or an approximate one (only
the query log changes); the constant-row producer is installed; or the checked cast
raises. -/
theorem TryExecuteAggregates_cases (sp : StatisticsPropagator) (aggr : LogicalAggregate)
    (node_ptr : LogicalOperator) :
    (TryExecuteAggregates sp aggr node_ptr = ⟨sp, node_ptr, none⟩ ∧
      (aggr.groups ≠ [] ∨ (∀ g, skipProjections aggr.child ≠ .get g) ∨
        (∃ g, skipProjections aggr.child = .get g ∧
          (g.function.get_partition_stats = none ∨ g.table_filters.filters ≠ [])) ∨
        allCountStar aggr.expressions = false)) ∨
    ∃ (g : LogicalGet)
      (f : ClientContext → GetPartitionStatsInput → List PartitionStatistics),
      aggr.groups = [] ∧ skipProjections aggr.child = .get g ∧
      g.function.get_partition_stats = some f ∧ g.table_filters.filters = [] ∧
      allCountStar aggr.expressions = true ∧
      ((TryExecuteAggregates sp aggr node_ptr =
          ⟨{ sp with partition_stats_queries :=
                sp.partition_stats_queries ++ [⟨g.function.name, g.bind_data⟩] },
            node_ptr, none⟩ ∧
          (f sp.context ⟨g.function.name, g.bind_data⟩ = [] ∨
            ∃ s ∈ f sp.context ⟨g.function.name, g.bind_data⟩,
              s.count_type = CountType.COUNT_APPROXIMATE)) ∨
        (f sp.context ⟨g.function.name, g.bind_data⟩ ≠ [] ∧
          (∀ s ∈ f sp.context ⟨g.function.name, g.bind_data⟩,
            s.count_type = CountType.COUNT_EXACT) ∧
          (((f sp.context ⟨g.function.name, g.bind_data⟩).map PartitionStatistics.count).sum
              % IDX_MODULUS ≤ INT64_MAX ∨ aggr.expressions = []) ∧
          TryExecuteAggregates sp aggr node_ptr =
            ⟨{ sp with partition_stats_queries :=
                  sp.partition_stats_queries ++ [⟨g.function.name, g.bind_data⟩] },
              .expressionGet aggr.aggregate_index
                (List.replicate aggr.expressions.length LogicalType.BIGINT)
                [aggr.expressions.map (fun e => Expression.BoundConstantExpression e.GetName
                  (Value.BIGINT (Int.ofNat
                    (((f sp.context ⟨g.function.name, g.bind_data⟩).map
                      PartitionStatistics.count).sum % IDX_MODULUS))))]
                [.dummyScan aggr.group_index],
              none⟩) ∨
        ((∀ s ∈ f sp.context ⟨g.function.name, g.bind_data⟩,
            s.count_type = CountType.COUNT_EXACT) ∧
          INT64_MAX <
            ((f sp.context ⟨g.function.name, g.bind_data⟩).map PartitionStatistics.count).sum
              % IDX_MODULUS ∧
          aggr.expressions ≠ [] ∧
          TryExecuteAggregates sp aggr node_ptr =
            ⟨{ sp with partition_stats_queries :=
                  sp.partition_stats_queries ++ [⟨g.function.name, g.bind_data⟩] },
              node_ptr, some (.InternalException "Information loss on integer cast")⟩)) := by
  by_cases hgroups : aggr.groups = []
  swap
  · exact Or.inl ⟨TryExecuteAggregates_of_failed_precondition sp aggr node_ptr (Or.inl hgroups),
      Or.inl hgroups⟩
  by_cases hscan : ∃ g, skipProjections aggr.child = .get g
  swap
  · have h : ∀ g, skipProjections aggr.child ≠ .get g := fun g hg => hscan ⟨g, hg⟩
    exact Or.inl ⟨TryExecuteAggregates_of_failed_precondition sp aggr node_ptr
      (Or.inr (Or.inl h)), Or.inr (Or.inl h)⟩
  obtain ⟨g, hscan⟩ := hscan
  cases hprov : g.function.get_partition_stats with
  | none =>
    have h : ∃ g, skipProjections aggr.child = .get g ∧
        (g.function.get_partition_stats = none ∨ g.table_filters.filters ≠ []) :=
      ⟨g, hscan, Or.inl hprov⟩
    exact Or.inl ⟨TryExecuteAggregates_of_failed_precondition sp aggr node_ptr
      (Or.inr (Or.inr (Or.inl h))), Or.inr (Or.inr (Or.inl h))⟩
  | some f =>
    by_cases hfilters : g.table_filters.filters = []
    swap
    · have h : ∃ g, skipProjections aggr.child = .get g ∧
          (g.function.get_partition_stats = none ∨ g.table_filters.filters ≠ []) :=
        ⟨g, hscan, Or.inr hfilters⟩
      exact Or.inl ⟨TryExecuteAggregates_of_failed_precondition sp aggr node_ptr
        (Or.inr (Or.inr (Or.inl h))), Or.inr (Or.inr (Or.inl h))⟩
    by_cases hcount : allCountStar aggr.expressions = true
    swap
    · have hcount := Bool.eq_false_iff.mpr hcount
      exact Or.inl ⟨TryExecuteAggregates_of_failed_precondition sp aggr node_ptr
        (Or.inr (Or.inr (Or.inr hcount))), Or.inr (Or.inr (Or.inr hcount))⟩
    · refine Or.inr ⟨g, f, hgroups, hscan, hprov, hfilters, hcount, ?_⟩
      by_cases hne : f sp.context ⟨g.function.name, g.bind_data⟩ = []
      · refine Or.inl ⟨?_, Or.inl hne⟩
        rw [TryExecuteAggregates_of_preconditions sp aggr node_ptr g f hgroups hscan hprov
          hfilters hcount]
        simp [hne]
      by_cases happrox : ∃ s ∈ f sp.context ⟨g.function.name, g.bind_data⟩,
          s.count_type = CountType.COUNT_APPROXIMATE
      · refine Or.inl ⟨?_, Or.inr happrox⟩
        rw [TryExecuteAggregates_of_preconditions sp aggr node_ptr g f hgroups hscan hprov
          hfilters hcount]
        have hnone := (sumPartitionCounts_eq_none_iff _ 0).mpr happrox
        simp only [hnone]
        split <;> rfl
      have hexact : ∀ s ∈ f sp.context ⟨g.function.name, g.bind_data⟩,
          s.count_type = CountType.COUNT_EXACT :=
        fun s hs => CountType.exact_of_not_approximate _ (fun h => happrox ⟨s, hs, h⟩)
      by_cases hfit : ((f sp.context ⟨g.function.name, g.bind_data⟩).map
          PartitionStatistics.count).sum % IDX_MODULUS ≤ INT64_MAX ∨ aggr.expressions = []
      · exact Or.inr (Or.inl ⟨hne, hexact, hfit,
          TryExecuteAggregates_replaces sp aggr node_ptr g f hgroups hscan hprov hfilters
            hcount hne hexact hfit⟩)
      · have hbig := Nat.not_le.mp (fun h => hfit (Or.inl h))
        have hexprs : aggr.expressions ≠ [] := fun h => hfit (Or.inr h)
        exact Or.inr (Or.inr ⟨hexact, hbig, hexprs,
          TryExecuteAggregates_raises sp aggr node_ptr g f hgroups hscan hprov hfilters
            hcount hexact hbig hexprs⟩)

/-! ## Lemmas on execution -/

/-- An operator that unwraps, through projections, to the scan `g` produces as many
rows as `g`. -/
theorem execute_length_of_skipProjections (scanRows : LogicalGet → List Row)
    (evalExternal : Expression → Row → Value) :
    ∀ (op : LogicalOperator) (g : LogicalGet), skipProjections op = .get g →
      ∃ rows, execute scanRows evalExternal op = some rows ∧
        rows.length = (scanRows g).length
  | .get g0, g, h => by
    simp only [skipProjections, LogicalOperator.get.injEq] at h
    subst h
    exact ⟨scanRows g0, rfl, rfl⟩
  | .projection t es child, g, h => by
    simp only [skipProjections] at h
    obtain ⟨rows, hrows, hlen⟩ :=
      execute_length_of_skipProjections scanRows evalExternal child g h
    exact ⟨rows.map (fun row => es.map (fun e => e.evaluate evalExternal row)),
      by simp [execute, hrows], by simp [hlen]⟩
  | .aggregate _ _, g, h => by simp [skipProjections] at h
  | .dummyScan _, g, h => by simp [skipProjections] at h
  | .expressionGet _ _ _ _, g, h => by simp [skipProjections] at h
  | .other _ _, g, h => by simp [skipProjections] at h

/-- Every expression accepted by the loop of lines 37-51 is a row-counting call. -/
theorem all_isRowCount_of_allCountStar (l : List Expression)
    (h : allCountStar l = true) : l.all Expression.isRowCount = true := by
  rw [allCountStar_iff] at h
  rw [List.all_eq_true]
  intro e he
  obtain ⟨a, c, rfl⟩ := h e he
  simp [Expression.isRowCount]

/-- Executing the constant-row producer built by the rewrite yields one row holding
the constant in every column. -/
theorem execute_count_results (scanRows : LogicalGet → List Row)
    (evalExternal : Expression → Row → Value) (table_index group_index : Nat)
    (types : List LogicalType) (l : List Expression) (v : Int) :
    execute scanRows evalExternal
      (.expressionGet table_index types
        [l.map (fun e => Expression.BoundConstantExpression e.GetName (Value.BIGINT v))]
        [.dummyScan group_index])
      = some [List.replicate l.length (Value.BIGINT v)] := by
  simp only [execute, List.map_cons, List.map_nil, List.map_map]
  congr 2
  induction l with
  | nil => rfl
  | cons e rest ih =>
    simp only [List.map_cons, List.length_cons, List.replicate_succ]
    rw [ih]
    rfl

/-- Executing a group-less aggregate of row-counting calls over an operator that
unwraps to the scan `g` yields one row holding the row count of `g` in every column. -/
theorem execute_count_aggregate (scanRows : LogicalGet → List Row)
    (evalExternal : Expression → Row → Value) (aggr : LogicalAggregate) (g : LogicalGet)
    (hgroups : aggr.groups = []) (hcount : allCountStar aggr.expressions = true)
    (hscan : skipProjections aggr.child = .get g) :
    execute scanRows evalExternal aggr.toOperator
      = some [List.replicate aggr.expressions.length
          (Value.BIGINT (Int.ofNat (scanRows g).length))] := by
  obtain ⟨rows, hrows, hlen⟩ :=
    execute_length_of_skipProjections scanRows evalExternal aggr.child g hscan
  have hall := all_isRowCount_of_allCountStar _ hcount
  simp only [LogicalAggregate.toOperator, execute, hgroups, hall, hrows, hlen,
    List.isEmpty_nil, Bool.and_self, if_true, Option.map_some']
  congr 2
  generalize aggr.expressions = l
  induction l with
  | nil => rfl
  | cons e rest ih =>
    simp only [List.map_cons, List.length_cons, List.replicate_succ]
    rw [ih]

/-! ## The exact-count rewrite -/

/-- C1 (amended): soundness of the exact-count rewrite.  For a group-less aggregate of
`n` filter-less `count_star` calls whose child unwraps, through projections, to a
filter-free scan whose provider returns a non-empty list of exact partition counts
summing to the number of rows the scan produces, that number being at most `2^63 - 1`:
`TryExecuteAggregates` does not raise, installs a constant-row producer, and executing
it yields what executing the original aggregate yields, one row whose `n` columns all
equal the row count of the scan. -/
theorem exact_count_rewrite_sound (scanRows : LogicalGet → List Row)
    (evalExternal : Expression → Row → Value) (sp : StatisticsPropagator)
    (aggr : LogicalAggregate) (g : LogicalGet)
    (f : ClientContext → GetPartitionStatsInput → List PartitionStatistics)
    (hgroups : aggr.groups = [])
    (hcalls : ∀ e ∈ aggr.expressions,
      ∃ a c, e = Expression.BoundAggregateExpression a "count_star" c none)
    (hscan : skipProjections aggr.child = .get g)
    (hfilters : g.table_filters.filters = [])
    (hprov : g.function.get_partition_stats = some f)
    (hne : f sp.context ⟨g.function.name, g.bind_data⟩ ≠ [])
    (hexact : ∀ s ∈ f sp.context ⟨g.function.name, g.bind_data⟩,
      s.count_type = CountType.COUNT_EXACT)
    (hsum : ((f sp.context ⟨g.function.name, g.bind_data⟩).map PartitionStatistics.count).sum
      = (scanRows g).length)
    (hfit : (scanRows g).length ≤ INT64_MAX) :
    (TryExecuteAggregates sp aggr aggr.toOperator).raised = none ∧
    (TryExecuteAggregates sp aggr aggr.toOperator).node_ptr.type
      = LogicalOperatorType.LOGICAL_EXPRESSION_GET ∧
    execute scanRows evalExternal (TryExecuteAggregates sp aggr aggr.toOperator).node_ptr
      = execute scanRows evalExternal aggr.toOperator ∧
    execute scanRows evalExternal aggr.toOperator
      = some [List.replicate aggr.expressions.length
          (Value.BIGINT (Int.ofNat (scanRows g).length))] := by
  have hcount : allCountStar aggr.expressions = true := (allCountStar_iff _).mpr hcalls
  have hlt : (scanRows g).length < IDX_MODULUS :=
    Nat.lt_of_le_of_lt hfit (by decide)
  have hmod : ((f sp.context ⟨g.function.name, g.bind_data⟩).map
      PartitionStatistics.count).sum % IDX_MODULUS = (scanRows g).length := by
    rw [hsum, Nat.mod_eq_of_lt hlt]
  have hrepl := TryExecuteAggregates_replaces sp aggr aggr.toOperator g f hgroups hscan hprov
    hfilters hcount hne hexact (Or.inl (by rw [hmod]; exact hfit))
  have horig := execute_count_aggregate scanRows evalExternal aggr g hgroups hcount hscan
  rw [hrepl, hmod]
  refine ⟨rfl, rfl, ?_, horig⟩
  rw [horig]
  exact execute_count_results scanRows evalExternal _ _ _ _ _

/-- Witness of C1: `SELECT count(*) FROM T` over a scan of 1,000 exact rows is
rewritten to a node that executes to the single row `1000`. -/
theorem exact_count_rewrite_sound_witness :
    (TryExecuteAggregates samplePropagator countOverExactScan
        countOverExactScan.toOperator).raised = none ∧
    (TryExecuteAggregates samplePropagator countOverExactScan
        countOverExactScan.toOperator).node_ptr.type
      = LogicalOperatorType.LOGICAL_EXPRESSION_GET ∧
    execute thousandRows sampleEvaluator
        (TryExecuteAggregates samplePropagator countOverExactScan
          countOverExactScan.toOperator).node_ptr
      = execute thousandRows sampleEvaluator countOverExactScan.toOperator ∧
    execute thousandRows sampleEvaluator countOverExactScan.toOperator
      = some [List.replicate countOverExactScan.expressions.length
          (Value.BIGINT (Int.ofNat
            (thousandRows (sampleScan [⟨0, 1000, .COUNT_EXACT⟩] [])).length))] :=
  exact_count_rewrite_sound thousandRows sampleEvaluator
    samplePropagator countOverExactScan (sampleScan [⟨0, 1000, .COUNT_EXACT⟩] [])
    (fun _ _ => [⟨0, 1000, .COUNT_EXACT⟩]) rfl
    (by
      intro e he
      simp only [countOverExactScan, sampleAggregate, List.mem_singleton] at he
      exact ⟨"count_star()", [], he⟩)
    rfl rfl rfl (by simp)
    (by
      intro s hs
      simp only [List.mem_singleton] at hs
      rw [hs])
    (by
      show _ = (List.replicate 1000 ([] : Row)).length
      rw [List.length_replicate]
      rfl)
    (by
      show (List.replicate 1000 ([] : Row)).length ≤ INT64_MAX
      rw [List.length_replicate]
      decide)

/-- Counterexample to C1 as stated: a scan producing `2^63` rows, reported exactly by
one partition, meets every hypothesis of the claim, yet `TryExecuteAggregates` raises
instead of installing a node whose execution yields the row count. -/
theorem exact_count_rewrite_overflow_counterexample :
    countOverHugeScan.groups = [] ∧
    skipProjections countOverHugeScan.child
      = .get (sampleScan [⟨0, 9223372036854775808, .COUNT_EXACT⟩] []) ∧
    ([(⟨0, 9223372036854775808, .COUNT_EXACT⟩ : PartitionStatistics)].map
        PartitionStatistics.count).sum
      = (List.replicate 9223372036854775808 ([] : Row)).length ∧
    (TryExecuteAggregates samplePropagator countOverHugeScan
        countOverHugeScan.toOperator).raised
      = some (.InternalException "Information loss on integer cast") := by
  refine ⟨rfl, rfl, ?_, rfl⟩
  rw [List.length_replicate]
  rfl

/-- C2: rewrite non-application.  If the aggregate has at least one group, or the scan
its child unwraps to has at least one table filter, or some aggregate expression is not
a `count_star` aggregate call, or some aggregate call has a filter clause, then
`TryExecuteAggregates` returns normally with the slot holding the node it held. -/
theorem rewrite_non_application (sp : StatisticsPropagator) (aggr : LogicalAggregate)
    (node_ptr : LogicalOperator)
    (h : aggr.groups ≠ [] ∨
      (∃ g, skipProjections aggr.child = .get g ∧ g.table_filters.filters ≠ []) ∨
      (∃ e ∈ aggr.expressions,
        ∀ a c flt, e ≠ Expression.BoundAggregateExpression a "count_star" c flt) ∨
      (∃ e ∈ aggr.expressions,
        ∃ a fn c flt, e = Expression.BoundAggregateExpression a fn c (some flt))) :
    (TryExecuteAggregates sp aggr node_ptr).node_ptr = node_ptr ∧
      (TryExecuteAggregates sp aggr node_ptr).raised = none := by
  have key : TryExecuteAggregates sp aggr node_ptr = ⟨sp, node_ptr, none⟩ := by
    apply TryExecuteAggregates_of_failed_precondition
    rcases h with h | ⟨g, hs, hf⟩ | ⟨e, he, hne⟩ | ⟨e, he, a, fn, c, flt, heq⟩
    · exact Or.inl h
    · exact Or.inr (Or.inr (Or.inl ⟨g, hs, Or.inr hf⟩))
    · refine Or.inr (Or.inr (Or.inr ?_))
      cases hc : allCountStar aggr.expressions with
      | false => rfl
      | true =>
        obtain ⟨a, c, heq⟩ := (allCountStar_iff _).mp hc e he
        exact absurd heq (hne a c none)
    · refine Or.inr (Or.inr (Or.inr ?_))
      cases hc : allCountStar aggr.expressions with
      | false => rfl
      | true =>
        obtain ⟨a2, c2, heq2⟩ := (allCountStar_iff _).mp hc e he
        rw [heq] at heq2
        simp at heq2
  rw [key]
  exact ⟨rfl, rfl⟩

/-- Witness of C2: with `WHERE x > 5` pushed into the scan the aggregate is left in the
slot. -/
theorem rewrite_non_application_witness :
    (∃ g, skipProjections countOverFilteredScan.child = .get g ∧
      g.table_filters.filters ≠ []) ∧
    (TryExecuteAggregates samplePropagator countOverFilteredScan
        countOverFilteredScan.toOperator).node_ptr = countOverFilteredScan.toOperator ∧
    (TryExecuteAggregates samplePropagator countOverFilteredScan
        countOverFilteredScan.toOperator).raised = none :=
  have h : ∃ g, skipProjections countOverFilteredScan.child = .get g ∧
      g.table_filters.filters ≠ [] :=
    ⟨sampleScan [⟨0, 1000, .COUNT_EXACT⟩] [(0, 5)], rfl, by simp [sampleScan]⟩
  ⟨h, rewrite_non_application samplePropagator countOverFilteredScan
    countOverFilteredScan.toOperator (Or.inr (Or.inl h))⟩

/-- C3: exactness gate.  If the list the provider returns contains a partition tagged
`COUNT_APPROXIMATE`, at any position and whatever the other partitions report, then
`TryExecuteAggregates` returns normally with the slot holding the node it held. -/
theorem exactness_gate (sp : StatisticsPropagator) (aggr : LogicalAggregate)
    (node_ptr : LogicalOperator) (g : LogicalGet)
    (f : ClientContext → GetPartitionStatsInput → List PartitionStatistics)
    (hscan : skipProjections aggr.child = .get g)
    (hprov : g.function.get_partition_stats = some f)
    (before after : List PartitionStatistics) (approximate : PartitionStatistics)
    (happrox : approximate.count_type = CountType.COUNT_APPROXIMATE)
    (hstats : f sp.context ⟨g.function.name, g.bind_data⟩ = before ++ approximate :: after) :
    (TryExecuteAggregates sp aggr node_ptr).node_ptr = node_ptr ∧
      (TryExecuteAggregates sp aggr node_ptr).raised = none :=
  TryExecuteAggregates_approximate sp aggr node_ptr g f hscan hprov
    ⟨approximate, by rw [hstats]; simp, happrox⟩

/-- Witness of C3: partitions of 400 exact and 600 approximate rows leave the aggregate
in the slot. -/
theorem exactness_gate_witness :
    (TryExecuteAggregates samplePropagator countOverApproximateScan
        countOverApproximateScan.toOperator).node_ptr = countOverApproximateScan.toOperator ∧
    (TryExecuteAggregates samplePropagator countOverApproximateScan
        countOverApproximateScan.toOperator).raised = none :=
  exactness_gate samplePropagator countOverApproximateScan countOverApproximateScan.toOperator
    (sampleScan [⟨0, 400, .COUNT_EXACT⟩, ⟨400, 600, .COUNT_APPROXIMATE⟩] [])
    (fun _ _ => [⟨0, 400, .COUNT_EXACT⟩, ⟨400, 600, .COUNT_APPROXIMATE⟩]) rfl rfl
    [⟨0, 400, .COUNT_EXACT⟩] [] ⟨400, 600, .COUNT_APPROXIMATE⟩ rfl rfl

/-- C4 (amended): shape of the replacement.  When every rewrite precondition holds and
the provider returns a non-empty list of exact partitions whose row counts sum to at
most `2^63 - 1`, the slot afterwards holds a constant-row producer under the
aggregate-output id with exactly one row of `n` expressions and `n` types, `n` the number
of aggregate expressions; at every position `i` the expression is a BIGINT constant equal
to the sum of the partition row counts, aliased with the name of the `i`-th aggregate
expression, and the type is BIGINT; its only child is the dummy scan carrying the
group-output id. -/
theorem replacement_shape (sp : StatisticsPropagator) (aggr : LogicalAggregate)
    (node_ptr : LogicalOperator) (g : LogicalGet)
    (f : ClientContext → GetPartitionStatsInput → List PartitionStatistics)
    (hgroups : aggr.groups = [])
    (hscan : skipProjections aggr.child = .get g)
    (hprov : g.function.get_partition_stats = some f)
    (hfilters : g.table_filters.filters = [])
    (hcalls : ∀ e ∈ aggr.expressions,
      ∃ a c, e = Expression.BoundAggregateExpression a "count_star" c none)
    (hne : f sp.context ⟨g.function.name, g.bind_data⟩ ≠ [])
    (hexact : ∀ s ∈ f sp.context ⟨g.function.name, g.bind_data⟩,
      s.count_type = CountType.COUNT_EXACT)
    (hfit : ((f sp.context ⟨g.function.name, g.bind_data⟩).map PartitionStatistics.count).sum
      ≤ INT64_MAX) :
    (TryExecuteAggregates sp aggr node_ptr).raised = none ∧
    ∃ (types : List LogicalType) (row : List Expression),
      (TryExecuteAggregates sp aggr node_ptr).node_ptr
        = .expressionGet aggr.aggregate_index types [row] [.dummyScan aggr.group_index] ∧
      types.length = aggr.expressions.length ∧
      row.length = aggr.expressions.length ∧
      ∀ (i : Nat) (hi : i < aggr.expressions.length),
        row[i]? = some (Expression.BoundConstantExpression
          (aggr.expressions.get ⟨i, hi⟩).GetName
          (Value.BIGINT (Int.ofNat
            ((f sp.context ⟨g.function.name, g.bind_data⟩).map
              PartitionStatistics.count).sum))) ∧
        (row[i]?).bind Expression.constantType = some LogicalType.BIGINT ∧
        types[i]? = some LogicalType.BIGINT := by
  have hcount : allCountStar aggr.expressions = true := (allCountStar_iff _).mpr hcalls
  have hmod : ((f sp.context ⟨g.function.name, g.bind_data⟩).map
      PartitionStatistics.count).sum % IDX_MODULUS
      = ((f sp.context ⟨g.function.name, g.bind_data⟩).map PartitionStatistics.count).sum :=
    Nat.mod_eq_of_lt (Nat.lt_of_le_of_lt hfit (by decide))
  have hrepl := TryExecuteAggregates_replaces sp aggr node_ptr g f hgroups hscan hprov
    hfilters hcount hne hexact (Or.inl (by rw [hmod]; exact hfit))
  rw [hrepl, hmod]
  refine ⟨rfl, _, _, rfl, by simp, by simp, ?_⟩
  intro i hi
  have hrow : (aggr.expressions.map (fun e => Expression.BoundConstantExpression e.GetName
      (Value.BIGINT (Int.ofNat
        ((f sp.context ⟨g.function.name, g.bind_data⟩).map
          PartitionStatistics.count).sum))))[i]?
      = some (Expression.BoundConstantExpression (aggr.expressions.get ⟨i, hi⟩).GetName
        (Value.BIGINT (Int.ofNat
          ((f sp.context ⟨g.function.name, g.bind_data⟩).map
            PartitionStatistics.count).sum))) := by
    rw [List.getElem?_map, List.getElem?_eq_getElem hi]
    rfl
  refine ⟨hrow, ?_, ?_⟩
  · rw [hrow]
    rfl
  · rw [List.getElem?_eq_getElem (by simpa using hi)]
    simp

/-- Witness of C4: two `count(*)` columns over partitions of 400 and 600 exact rows. -/
theorem replacement_shape_witness :
    (TryExecuteAggregates samplePropagator twoCountsOverExactScan
        twoCountsOverExactScan.toOperator).raised = none ∧
    ∃ (types : List LogicalType) (row : List Expression),
      (TryExecuteAggregates samplePropagator twoCountsOverExactScan
          twoCountsOverExactScan.toOperator).node_ptr
        = .expressionGet twoCountsOverExactScan.aggregate_index types [row]
            [.dummyScan twoCountsOverExactScan.group_index] ∧
      types.length = twoCountsOverExactScan.expressions.length ∧
      row.length = twoCountsOverExactScan.expressions.length ∧
      ∀ (i : Nat) (hi : i < twoCountsOverExactScan.expressions.length),
        row[i]? = some (Expression.BoundConstantExpression
          (twoCountsOverExactScan.expressions.get ⟨i, hi⟩).GetName
          (Value.BIGINT (Int.ofNat
            (([⟨0, 400, .COUNT_EXACT⟩, ⟨400, 600, .COUNT_EXACT⟩] :
              List PartitionStatistics).map PartitionStatistics.count).sum))) ∧
        (row[i]?).bind Expression.constantType = some LogicalType.BIGINT ∧
        types[i]? = some LogicalType.BIGINT :=
  replacement_shape samplePropagator twoCountsOverExactScan twoCountsOverExactScan.toOperator
    (sampleScan [⟨0, 400, .COUNT_EXACT⟩, ⟨400, 600, .COUNT_EXACT⟩] [])
    (fun _ _ => [⟨0, 400, .COUNT_EXACT⟩, ⟨400, 600, .COUNT_EXACT⟩]) rfl rfl rfl rfl
    (by
      intro e he
      simp only [twoCountsOverExactScan, sampleAggregate, List.mem_cons, List.mem_singleton,
        List.mem_nil_iff, or_false] at he
      rcases he with he | he
      · exact ⟨"a", [], he⟩
      · exact ⟨"b", [], he⟩)
    (by simp)
    (by
      intro s hs
      simp only [List.mem_cons, List.mem_singleton, List.mem_nil_iff, or_false] at hs
      rcases hs with hs | hs <;> rw [hs])
    (by decide)

/-- Counterexample to C4 as stated.  With one exact partition of `2^63` rows every
precondition holds and the list is non-empty, yet the slot afterwards still holds the
aggregate, not a constant-row producer: the checked cast raised.  With two exact
partitions of `2^63` rows each, the `idx_t` total wraps and the constant installed is
`0`, not the sum `2^64` of the partition row counts. -/
theorem replacement_shape_counterexample :
    (countOverHugeScan.groups = [] ∧
      allCountStar countOverHugeScan.expressions = true ∧
      skipProjections countOverHugeScan.child
        = .get (sampleScan [⟨0, 9223372036854775808, .COUNT_EXACT⟩] []) ∧
      (TryExecuteAggregates samplePropagator countOverHugeScan
          countOverHugeScan.toOperator).node_ptr = countOverHugeScan.toOperator ∧
      (TryExecuteAggregates samplePropagator countOverHugeScan
          countOverHugeScan.toOperator).node_ptr.type
        = LogicalOperatorType.LOGICAL_AGGREGATE_AND_GROUP_BY) ∧
    ((TryExecuteAggregates samplePropagator countOverWrappingScan
          countOverWrappingScan.toOperator).node_ptr
        = .expressionGet 2 [.BIGINT]
            [[.BoundConstantExpression "count_star()" (.BIGINT 0)]] [.dummyScan 1] ∧
      ([(⟨0, 9223372036854775808, .COUNT_EXACT⟩ : PartitionStatistics),
          ⟨9223372036854775808, 9223372036854775808, .COUNT_EXACT⟩].map
            PartitionStatistics.count).sum = 18446744073709551616) :=
  ⟨⟨rfl, rfl, rfl, rfl, rfl⟩, rfl, rfl⟩

/-- C5: binding preservation.  Whenever `TryExecuteAggregates` replaces the aggregate
held by the slot, the aggregate is group-less, the replacement is a constant-row
producer carrying the aggregate-output id of the aggregate, and the Column Bindings it
produces are those the aggregate produced: `(aggregate-output id, i)` for `i < n`, in
this order. -/
theorem replacement_preserves_bindings (sp : StatisticsPropagator) (aggr : LogicalAggregate)
    (hreplaced : (TryExecuteAggregates sp aggr aggr.toOperator).node_ptr ≠ aggr.toOperator) :
    aggr.groups = [] ∧
    (∃ types expressions children,
      (TryExecuteAggregates sp aggr aggr.toOperator).node_ptr
        = .expressionGet aggr.aggregate_index types expressions children) ∧
    (TryExecuteAggregates sp aggr aggr.toOperator).node_ptr.GetColumnBindings
      = aggr.toOperator.GetColumnBindings ∧
    aggr.toOperator.GetColumnBindings
      = some ((List.range aggr.expressions.length).map
          (fun i => (⟨aggr.aggregate_index, i⟩ : ColumnBinding))) := by
  rcases TryExecuteAggregates_cases sp aggr aggr.toOperator with
    ⟨h, _⟩ | ⟨g, f, hgroups, _, _, _, _, ⟨h, _⟩ | ⟨_, _, _, h⟩ | ⟨_, _, _, h⟩⟩
  · rw [h] at hreplaced
    exact absurd rfl hreplaced
  · rw [h] at hreplaced
    exact absurd rfl hreplaced
  · rw [h]
    refine ⟨hgroups, ⟨_, _, _, rfl⟩, ?_, ?_⟩
    · simp [LogicalOperator.GetColumnBindings, LogicalAggregate.toOperator, hgroups,
        GenerateColumnBindings]
    · simp [LogicalOperator.GetColumnBindings, LogicalAggregate.toOperator, hgroups,
        GenerateColumnBindings]
  · rw [h] at hreplaced
    exact absurd rfl hreplaced

/-- Witness of C5: the rewrite of `SELECT count(*) FROM T` keeps the binding `(2, 0)`. -/
theorem replacement_preserves_bindings_witness :
    countOverExactScan.groups = [] ∧
    (∃ types expressions children,
      (TryExecuteAggregates samplePropagator countOverExactScan
          countOverExactScan.toOperator).node_ptr
        = .expressionGet countOverExactScan.aggregate_index types expressions children) ∧
    (TryExecuteAggregates samplePropagator countOverExactScan
        countOverExactScan.toOperator).node_ptr.GetColumnBindings
      = countOverExactScan.toOperator.GetColumnBindings ∧
    countOverExactScan.toOperator.GetColumnBindings
      = some ((List.range countOverExactScan.expressions.length).map
          (fun i => (⟨countOverExactScan.aggregate_index, i⟩ : ColumnBinding))) :=
  replacement_preserves_bindings samplePropagator countOverExactScan
    (fun h => LogicalOperator.noConfusion h)

/-- C6 (amended): `TryExecuteAggregates` is total and ends in one of two ways.  Either it
returns normally, the slot holding the node it held or a constant-row producer; or it
raises the `InternalException` of the checked cast of line 71, and then the slot still
holds the node it held.  It raises in exactly one situation: the aggregate is group-less
with at least one aggregate expression, all of them filter-less `count_star` calls, its
child unwraps to a filter-free scan with a provider, every partition returned is exact,
and the `idx_t` total of the row counts (their sum modulo `2^64`) exceeds `2^63 - 1`. -/
theorem rewrite_raises_only_on_cast_overflow (sp : StatisticsPropagator)
    (aggr : LogicalAggregate) (node_ptr : LogicalOperator) :
    (((TryExecuteAggregates sp aggr node_ptr).raised = none ∧
        ((TryExecuteAggregates sp aggr node_ptr).node_ptr = node_ptr ∨
          ∃ types row, (TryExecuteAggregates sp aggr node_ptr).node_ptr
            = .expressionGet aggr.aggregate_index types [row]
                [.dummyScan aggr.group_index])) ∨
      ((TryExecuteAggregates sp aggr node_ptr).raised
          = some (.InternalException "Information loss on integer cast") ∧
        (TryExecuteAggregates sp aggr node_ptr).node_ptr = node_ptr)) ∧
    ((TryExecuteAggregates sp aggr node_ptr).raised ≠ none ↔
      aggr.groups = [] ∧ aggr.expressions ≠ [] ∧
      (∀ e ∈ aggr.expressions,
        ∃ a c, e = Expression.BoundAggregateExpression a "count_star" c none) ∧
      ∃ (g : LogicalGet)
        (f : ClientContext → GetPartitionStatsInput → List PartitionStatistics),
        skipProjections aggr.child = .get g ∧
        g.function.get_partition_stats = some f ∧
        g.table_filters.filters = [] ∧
        (∀ s ∈ f sp.context ⟨g.function.name, g.bind_data⟩,
          s.count_type = CountType.COUNT_EXACT) ∧
        INT64_MAX <
          ((f sp.context ⟨g.function.name, g.bind_data⟩).map PartitionStatistics.count).sum
            % IDX_MODULUS) := by
  constructor
  · rcases TryExecuteAggregates_cases sp aggr node_ptr with
      ⟨h, _⟩ | ⟨g, f, _, _, _, _, _, ⟨h, _⟩ | ⟨_, _, _, h⟩ | ⟨_, _, _, h⟩⟩
    · rw [h]; exact Or.inl ⟨rfl, Or.inl rfl⟩
    · rw [h]; exact Or.inl ⟨rfl, Or.inl rfl⟩
    · rw [h]; exact Or.inl ⟨rfl, Or.inr ⟨_, _, rfl⟩⟩
    · rw [h]; exact Or.inr ⟨rfl, rfl⟩
  · constructor
    · intro hraised
      rcases TryExecuteAggregates_cases sp aggr node_ptr with
        ⟨h, _⟩ | ⟨g, f, hgroups, hscan, hprov, hfilters, hcount,
          ⟨h, _⟩ | ⟨_, _, _, h⟩ | ⟨hexact, hbig, hexprs, _⟩⟩
      · rw [h] at hraised; exact absurd rfl hraised
      · rw [h] at hraised; exact absurd rfl hraised
      · rw [h] at hraised; exact absurd rfl hraised
      · exact ⟨hgroups, hexprs, (allCountStar_iff _).mp hcount, g, f, hscan, hprov, hfilters,
          hexact, hbig⟩
    · rintro ⟨hgroups, hexprs, hcalls, g, f, hscan, hprov, hfilters, hexact, hbig⟩
      rw [TryExecuteAggregates_raises sp aggr node_ptr g f hgroups hscan hprov hfilters
        ((allCountStar_iff _).mpr hcalls) hexact hbig hexprs]
      simp

/-- Counterexample to C6 as stated: two exact partitions of `2^63 - 1` rows and 1 row sum
past the signed 64-bit range, and `TryExecuteAggregates` raises. -/
theorem rewrite_raises_counterexample :
    (TryExecuteAggregates samplePropagator countOverTwoPartitions
        countOverTwoPartitions.toOperator).raised
      = some (.InternalException "Information loss on integer cast") :=
  rfl

/-! ## Lemmas on Step A -/

/-- `TryExecuteAggregates` does not touch the Statistics Map, the context or the stored
Node Statistics. -/
theorem TryExecuteAggregates_frame (sp : StatisticsPropagator) (aggr : LogicalAggregate)
    (node_ptr : LogicalOperator) :
    (TryExecuteAggregates sp aggr node_ptr).propagator.statistics_map = sp.statistics_map ∧
    (TryExecuteAggregates sp aggr node_ptr).propagator.node_stats = sp.node_stats ∧
    (TryExecuteAggregates sp aggr node_ptr).propagator.context = sp.context := by
  rcases TryExecuteAggregates_cases sp aggr node_ptr with
    ⟨h, _⟩ | ⟨g, f, _, _, _, _, _, ⟨h, _⟩ | ⟨_, _, _, h⟩ | ⟨_, _, _, h⟩⟩ <;>
  · rw [h]
    exact ⟨rfl, rfl, rfl⟩

/-- The aggregate object the handler leaves is the one Step A computed. -/
theorem PropagateStatistics_aggr (ext : Collaborators) (sp : StatisticsPropagator)
    (aggr : LogicalAggregate) :
    (PropagateStatistics ext sp aggr).aggr = (propagateStepA ext sp aggr).2 := by
  unfold PropagateStatistics
  simp only
  split <;> rfl

/-- The Statistics Map the handler leaves is the one Step A computed. -/
theorem PropagateStatistics_statistics_map (ext : Collaborators) (sp : StatisticsPropagator)
    (aggr : LogicalAggregate) :
    (PropagateStatistics ext sp aggr).propagator.statistics_map
      = (propagateStepA ext sp aggr).1.statistics_map := by
  unfold PropagateStatistics
  simp only
  split
  · exact (TryExecuteAggregates_frame _ _ _).1
  · exact (TryExecuteAggregates_frame _ _ _).1

/-- Once downgraded, the flag stays downgraded through the loop over the arguments. -/
theorem distinctValidityOfChildren_can (m : StatisticsMap) (l : List Expression) :
    distinctValidityOfChildren m l .CAN_HAVE_NULL_VALUES = .CAN_HAVE_NULL_VALUES := by
  induction l with
  | nil => rfl
  | cons c rest ih =>
    cases c with
    | BoundColumnRefExpression a b =>
      simp only [distinctValidityOfChildren]
      split
      · split
        · rfl
        · exact ih
      · rfl
    | BoundAggregateExpression a fn ch flt => rfl
    | BoundConstantExpression a v => rfl
    | OtherExpression a k ch => rfl

/-- Once downgraded, the flag stays downgraded through the loop over the aggregates. -/
theorem distinctValidityLoop_can (m : StatisticsMap) (l : List Expression) :
    distinctValidityLoop m l .CAN_HAVE_NULL_VALUES = .CAN_HAVE_NULL_VALUES := by
  cases l with
  | nil => rfl
  | cons e rest => simp [distinctValidityLoop]

/-- The loop over the arguments keeps the flag exactly when every argument is proven
non-null. -/
theorem distinctValidityOfChildren_cannot_iff (m : StatisticsMap) (l : List Expression) :
    distinctValidityOfChildren m l .CANNOT_HAVE_NULL_VALUES = .CANNOT_HAVE_NULL_VALUES ↔
      l.all (argumentProvenNonNull m) = true := by
  induction l with
  | nil => simp [distinctValidityOfChildren]
  | cons c rest ih =>
    cases c with
    | BoundColumnRefExpression a b =>
      simp only [distinctValidityOfChildren, List.all_cons, argumentProvenNonNull,
        Bool.and_eq_true]
      cases hm : m b with
      | none => simp
      | some o =>
        cases o with
        | none => simp
        | some stats =>
          by_cases hn : stats.CanHaveNull = true
          · simp [hn]
          · have hn := Bool.eq_false_iff.mpr hn
            simpa [hn] using ih
    | BoundAggregateExpression a fn ch flt =>
      simp [distinctValidityOfChildren, argumentProvenNonNull]
    | BoundConstantExpression a v => simp [distinctValidityOfChildren, argumentProvenNonNull]
    | OtherExpression a k ch => simp [distinctValidityOfChildren, argumentProvenNonNull]

/-- The flag-and-break loops of lines 119-144 compute the short-circuiting fold. -/
theorem distinctValidityLoop_eq_fold (m : StatisticsMap) (l : List Expression) :
    distinctValidityLoop m l .CANNOT_HAVE_NULL_VALUES = distinctValidityFold m l := by
  induction l with
  | nil => rfl
  | cons e rest ih =>
    cases e with
    | BoundAggregateExpression a fn ch flt =>
      simp only [distinctValidityLoop, distinctValidityFold, List.all_cons]
      by_cases hch : ch.all (argumentProvenNonNull m) = true
      · rw [(distinctValidityOfChildren_cannot_iff m ch).mpr hch, ih]
        simp [distinctValidityFold, hch]
      · have hcan : distinctValidityOfChildren m ch .CANNOT_HAVE_NULL_VALUES
            = .CAN_HAVE_NULL_VALUES := by
          cases hd : distinctValidityOfChildren m ch .CANNOT_HAVE_NULL_VALUES with
          | CAN_HAVE_NULL_VALUES => rfl
          | CANNOT_HAVE_NULL_VALUES =>
            exact absurd ((distinctValidityOfChildren_cannot_iff m ch).mp hd) hch
        rw [hcan, distinctValidityLoop_can]
        simp [hch]
    | BoundColumnRefExpression a b => simp [distinctValidityLoop, distinctValidityFold]
    | BoundConstantExpression a v => simp [distinctValidityLoop, distinctValidityFold]
    | OtherExpression a k ch => simp [distinctValidityLoop, distinctValidityFold]

/-- An argument is proven non-null exactly when it is a column reference whose binding
has a present statistics entry that cannot have null. -/
theorem argumentProvenNonNull_iff (m : StatisticsMap) (c : Expression) :
    argumentProvenNonNull m c = true ↔
      ∃ ca binding stats, c = Expression.BoundColumnRefExpression ca binding ∧
        m binding = some (some stats) ∧ stats.CanHaveNull = false := by
  cases c with
  | BoundColumnRefExpression a b =>
    simp only [argumentProvenNonNull]
    cases hm : m b with
    | none => simp [hm]
    | some o =>
      cases o with
      | none => simp [hm]
      | some stats =>
        constructor
        · intro h
          exact ⟨a, b, stats, rfl, hm, by simpa using h⟩
        · rintro ⟨ca, binding, stats2, heq, hm2, hn⟩
          simp only [Expression.BoundColumnRefExpression.injEq] at heq
          obtain ⟨_, rfl⟩ := heq
          rw [hm] at hm2
          simp only [Option.some.injEq] at hm2
          subst hm2
          simp [hn]
  | BoundAggregateExpression a fn ch flt => simp [argumentProvenNonNull]
  | BoundConstantExpression a v => simp [argumentProvenNonNull]
  | OtherExpression a k ch => simp [argumentProvenNonNull]

/-- The fold yields `CANNOT_HAVE_NULL_VALUES` exactly when every aggregate expression is
an aggregate call whose arguments are all proven non-null. -/
theorem distinctValidityFold_cannot_iff (m : StatisticsMap) (l : List Expression) :
    distinctValidityFold m l = .CANNOT_HAVE_NULL_VALUES ↔
      ∀ e ∈ l, ∃ a fn children flt,
        e = Expression.BoundAggregateExpression a fn children flt ∧
        ∀ c ∈ children, ∃ ca binding stats,
          c = Expression.BoundColumnRefExpression ca binding ∧
          m binding = some (some stats) ∧ stats.CanHaveNull = false := by
  unfold distinctValidityFold
  constructor
  · intro h
    split at h
    · next hall =>
      rw [List.all_eq_true] at hall
      intro e he
      have := hall e he
      cases e with
      | BoundAggregateExpression a fn ch flt =>
        simp only [List.all_eq_true] at this
        exact ⟨a, fn, ch, flt, rfl, fun c hc => (argumentProvenNonNull_iff m c).mp (this c hc)⟩
      | BoundColumnRefExpression a b => simp at this
      | BoundConstantExpression a v => simp at this
      | OtherExpression a k ch => simp at this
    · simp at h
  · intro h
    rw [if_pos]
    rw [List.all_eq_true]
    intro e he
    obtain ⟨a, fn, ch, flt, rfl, hch⟩ := h e he
    simp only [List.all_eq_true]
    exact fun c hc => (argumentProvenNonNull_iff m c).mpr (hch c hc)

/-- The validity stored by Step A is the result of the loops of lines 119-144 run on the
Statistics Map Step A leaves. -/
theorem propagateStepA_distinct_validity (ext : Collaborators) (sp : StatisticsPropagator)
    (aggr : LogicalAggregate) :
    (propagateStepA ext sp aggr).2.distinct_validity
      = distinctValidityLoop (propagateStepA ext sp aggr).1.statistics_map aggr.expressions
          .CANNOT_HAVE_NULL_VALUES :=
  rfl

/-- C7: distinct-validity characterisation.  After `PropagateStatistics` the aggregate's
`distinct_validity` is `CANNOT_HAVE_NULL_VALUES` if and only if every aggregate expression
is an aggregate call and every argument of every call is a direct column reference whose
binding has, in the Statistics Map left by Step A, a present statistics entry that cannot
have null; in every other case it is `CAN_HAVE_NULL_VALUES`; and the flag-and-break loops
compute the short-circuiting all-of-all fold. -/
theorem distinct_validity_characterisation (ext : Collaborators) (sp : StatisticsPropagator)
    (aggr : LogicalAggregate) :
    ((PropagateStatistics ext sp aggr).aggr.distinct_validity = .CANNOT_HAVE_NULL_VALUES ↔
      ∀ e ∈ aggr.expressions, ∃ a fn children flt,
        e = Expression.BoundAggregateExpression a fn children flt ∧
        ∀ c ∈ children, ∃ ca binding stats,
          c = Expression.BoundColumnRefExpression ca binding ∧
          (PropagateStatistics ext sp aggr).propagator.statistics_map binding
            = some (some stats) ∧
          stats.CanHaveNull = false) ∧
    ((PropagateStatistics ext sp aggr).aggr.distinct_validity = .CAN_HAVE_NULL_VALUES ↔
      ¬ ∀ e ∈ aggr.expressions, ∃ a fn children flt,
        e = Expression.BoundAggregateExpression a fn children flt ∧
        ∀ c ∈ children, ∃ ca binding stats,
          c = Expression.BoundColumnRefExpression ca binding ∧
          (PropagateStatistics ext sp aggr).propagator.statistics_map binding
            = some (some stats) ∧
          stats.CanHaveNull = false) ∧
    (PropagateStatistics ext sp aggr).aggr.distinct_validity
      = distinctValidityFold (PropagateStatistics ext sp aggr).propagator.statistics_map
          aggr.expressions := by
  rw [PropagateStatistics_aggr, PropagateStatistics_statistics_map,
    propagateStepA_distinct_validity, distinctValidityLoop_eq_fold]
  refine ⟨distinctValidityFold_cannot_iff _ _, ?_, rfl⟩
  rw [← distinctValidityFold_cannot_iff]
  cases distinctValidityFold (propagateStepA ext sp aggr).1.statistics_map
      aggr.expressions with
  | CAN_HAVE_NULL_VALUES => simp
  | CANNOT_HAVE_NULL_VALUES => simp

/-- The loop over the aggregates, started at position `i`, writes only the bindings
`(aggregate-output id, a)` of the positions `a` it visits. -/
theorem propagateAggregates_frame
    (PE : StatisticsMap → Expression → Option BaseStatistics) (aggregate_index : Nat)
    (k : ColumnBinding) (l : List Expression) :
    ∀ (i : Nat) (m : StatisticsMap),
      (∀ a : Nat, i ≤ a → a < i + l.length → k ≠ ⟨aggregate_index, a⟩) →
      propagateAggregates PE aggregate_index l i m k = m k := by
  induction l with
  | nil => intro i m _; rfl
  | cons e rest ih =>
    intro i m hk
    have hrest : ∀ a : Nat, i + 1 ≤ a → a < i + 1 + rest.length →
        k ≠ ⟨aggregate_index, a⟩ := by
      intro a h1 h2
      apply hk a (Nat.le_of_succ_le h1)
      simp only [List.length_cons]
      omega
    simp only [propagateAggregates]
    cases PE m e with
    | none => exact ih _ _ hrest
    | some s =>
      simp only
      rw [ih _ _ hrest]
      simp only [StatisticsMap.insert]
      rw [if_neg]
      apply hk i (Nat.le_refl i)
      simp only [List.length_cons]
      omega

/-- One iteration of the loop over the groups. -/
theorem propagateGroups_cons
    (PE : StatisticsMap → Expression → Option BaseStatistics) (grouping_sets : List (List Nat))
    (group_index : Nat) (e : Expression) (rest : List Expression) (i : Nat)
    (st : GroupLoopState) :
    propagateGroups PE grouping_sets group_index (e :: rest) i st =
      propagateGroups PE grouping_sets group_index rest (i + 1)
        ⟨match PE st.statistics_map e with
          | none => st.statistics_map
          | some s =>
            if grouping_sets.length > 1 then st.statistics_map
            else st.statistics_map.insert ⟨group_index, i⟩ (some s),
         st.group_stats.set i ((PE st.statistics_map e).map BaseStatistics.ToUnique)⟩ := by
  simp only [propagateGroups]
  cases PE st.statistics_map e with
  | none => rfl
  | some s =>
    simp only
    split <;> rfl

/-- With more than one grouping set the loop over the groups leaves the map alone. -/
theorem propagateGroups_map_of_many_sets
    (PE : StatisticsMap → Expression → Option BaseStatistics) (grouping_sets : List (List Nat))
    (group_index : Nat) (hsets : 1 < grouping_sets.length) (l : List Expression) :
    ∀ (i : Nat) (st : GroupLoopState),
      (propagateGroups PE grouping_sets group_index l i st).statistics_map
        = st.statistics_map := by
  induction l with
  | nil => intro i st; rfl
  | cons e rest ih =>
    intro i st
    rw [propagateGroups_cons, ih]
    cases PE st.statistics_map e with
    | none => rfl
    | some s => simp [hsets]

/-- The loop over the groups, started at position `i`, writes only under the
group-output id and only at column positions from `i` on. -/
theorem propagateGroups_map_frame
    (PE : StatisticsMap → Expression → Option BaseStatistics) (grouping_sets : List (List Nat))
    (group_index : Nat) (k : ColumnBinding) (l : List Expression) :
    ∀ (i : Nat) (st : GroupLoopState),
      (k.table_index ≠ group_index ∨ k.column_index < i) →
      (propagateGroups PE grouping_sets group_index l i st).statistics_map k
        = st.statistics_map k := by
  induction l with
  | nil => intro i st _; rfl
  | cons e rest ih =>
    intro i st hk
    rw [propagateGroups_cons, ih _ _ (hk.imp id (fun h => Nat.lt_succ_of_lt h))]
    cases PE st.statistics_map e with
    | none => rfl
    | some s =>
      simp only
      split
      · rfl
      · simp only [StatisticsMap.insert]
        rw [if_neg]
        intro h
        rw [h] at hk
        rcases hk with hk | hk
        · exact hk rfl
        · exact Nat.lt_irrefl _ hk

/-- The loop over the groups keeps the number of slots of `group_stats`. -/
theorem propagateGroups_length
    (PE : StatisticsMap → Expression → Option BaseStatistics) (grouping_sets : List (List Nat))
    (group_index : Nat) (l : List Expression) :
    ∀ (i : Nat) (st : GroupLoopState),
      (propagateGroups PE grouping_sets group_index l i st).group_stats.length
        = st.group_stats.length := by
  induction l with
  | nil => intro i st; rfl
  | cons e rest ih =>
    intro i st
    rw [propagateGroups_cons, ih]
    simp

/-- The loop over the groups, started at position `i`, leaves the slots before `i`. -/
theorem propagateGroups_stats_frame
    (PE : StatisticsMap → Expression → Option BaseStatistics) (grouping_sets : List (List Nat))
    (group_index : Nat) (j : Nat) (l : List Expression) :
    ∀ (i : Nat) (st : GroupLoopState), j < i →
      (propagateGroups PE grouping_sets group_index l i st).group_stats[j]?
        = st.group_stats[j]? := by
  induction l with
  | nil => intro i st _; rfl
  | cons e rest ih =>
    intro i st hj
    rw [propagateGroups_cons, ih _ _ (Nat.lt_succ_of_lt hj)]
    simp only
    rw [List.getElem?_set_ne (Nat.ne_of_gt hj)]

/-- The loop over a concatenation runs the loop over the second list from the state the
loop over the first list leaves. -/
theorem propagateGroups_append
    (PE : StatisticsMap → Expression → Option BaseStatistics) (grouping_sets : List (List Nat))
    (group_index : Nat) (l1 l2 : List Expression) :
    ∀ (i : Nat) (st : GroupLoopState),
      propagateGroups PE grouping_sets group_index (l1 ++ l2) i st
        = propagateGroups PE grouping_sets group_index l2 (i + l1.length)
            (propagateGroups PE grouping_sets group_index l1 i st) := by
  induction l1 with
  | nil => intro i st; rfl
  | cons e rest ih =>
    intro i st
    rw [List.cons_append, propagateGroups_cons, propagateGroups_cons, ih]
    simp only [List.length_cons]
    rw [Nat.add_assoc, Nat.add_comm 1]

/-- The resized vector has one slot per group. -/
theorem resizeStats_length (v : List (Option BaseStatistics)) (n : Nat) :
    (resizeStats v n).length = n := by
  simp only [resizeStats, List.length_append, List.length_take, List.length_replicate]
  omega

/-- Slot `g` of `group_stats` after the loop over the groups holds what the Expression
Propagator returned at iteration `g`. -/
theorem propagateGroups_slot
    (PE : StatisticsMap → Expression → Option BaseStatistics) (grouping_sets : List (List Nat))
    (group_index : Nat) (groups : List Expression) (st : GroupLoopState) (g : Nat)
    (hg : g < groups.length) (hlen : st.group_stats.length = groups.length) :
    (propagateGroups PE grouping_sets group_index groups 0 st).group_stats[g]?
      = some (PE (propagateGroups PE grouping_sets group_index (groups.take g) 0
          st).statistics_map (groups.get ⟨g, hg⟩)) := by
  have hsplit : groups = groups.take g ++ (groups.get ⟨g, hg⟩ :: groups.drop (g + 1)) := by
    rw [List.get_eq_getElem, ← List.drop_eq_getElem_cons hg, List.take_append_drop]
  have htake : (groups.take g).length = g := by
    rw [List.length_take]
    omega
  conv => lhs; rw [hsplit]
  rw [propagateGroups_append, propagateGroups_cons, htake, Nat.zero_add,
    propagateGroups_stats_frame _ _ _ g _ _ _ (Nat.lt_succ_self g)]
  simp only
  rw [List.getElem?_set_self]
  · cases PE (propagateGroups PE grouping_sets group_index (groups.take g) 0
        st).statistics_map (groups.get ⟨g, hg⟩) with
    | none => rfl
    | some s => rfl
  · rw [propagateGroups_length, hlen]
    exact hg

/-- With at most one grouping set, the statistics returned at iteration `g` are in the
map under `(group-output id, g)` after the loop over the groups. -/
theorem propagateGroups_inserted
    (PE : StatisticsMap → Expression → Option BaseStatistics) (grouping_sets : List (List Nat))
    (group_index : Nat) (groups : List Expression) (st : GroupLoopState) (g : Nat)
    (hg : g < groups.length) (hsets : grouping_sets.length ≤ 1) (s : BaseStatistics)
    (hret : PE (propagateGroups PE grouping_sets group_index (groups.take g) 0
        st).statistics_map (groups.get ⟨g, hg⟩) = some s) :
    (propagateGroups PE grouping_sets group_index groups 0 st).statistics_map
      ⟨group_index, g⟩ = some (some s) := by
  have hsplit : groups = groups.take g ++ (groups.get ⟨g, hg⟩ :: groups.drop (g + 1)) := by
    rw [List.get_eq_getElem, ← List.drop_eq_getElem_cons hg, List.take_append_drop]
  have htake : (groups.take g).length = g := by
    rw [List.length_take]
    omega
  conv => lhs; rw [hsplit]
  rw [propagateGroups_append, propagateGroups_cons, htake, Nat.zero_add,
    propagateGroups_map_frame _ _ _ _ _ _ _ (Or.inr (Nat.lt_succ_self g)), hret]
  simp only
  rw [if_neg (Nat.not_lt.mpr hsets)]
  simp [StatisticsMap.insert]

/-- The Statistics Map Step A leaves: the loop over the aggregates run after the loop
over the groups, from the map child propagation left. -/
theorem propagateStepA_statistics_map (ext : Collaborators) (sp : StatisticsPropagator)
    (aggr : LogicalAggregate) :
    (propagateStepA ext sp aggr).1.statistics_map
      = propagateAggregates ext.PropagateExpression aggr.aggregate_index aggr.expressions 0
          (propagateGroups ext.PropagateExpression aggr.grouping_sets aggr.group_index
            aggr.groups 0
            ⟨mapAfterChild ext sp aggr,
              resizeStats aggr.group_stats aggr.groups.length⟩).statistics_map :=
  rfl

/-- The `group_stats` Step A leaves: those of the loop over the groups. -/
theorem propagateStepA_group_stats (ext : Collaborators) (sp : StatisticsPropagator)
    (aggr : LogicalAggregate) :
    (propagateStepA ext sp aggr).2.group_stats
      = (propagateGroups ext.PropagateExpression aggr.grouping_sets aggr.group_index
          aggr.groups 0
          ⟨mapAfterChild ext sp aggr,
            resizeStats aggr.group_stats aggr.groups.length⟩).group_stats :=
  rfl

/-- The loops computing the validity never look at a filter clause. -/
theorem distinctValidityLoop_addFilterAt (m : StatisticsMap) (flt : Expression)
    (l : List Expression) :
    ∀ (i : Nat) (dv : TupleDataValidityType),
      distinctValidityLoop m (addFilterAt flt l i) dv = distinctValidityLoop m l dv := by
  induction l with
  | nil => intro i dv; rfl
  | cons e rest ih =>
    intro i dv
    cases i with
    | zero =>
      cases e <;> simp only [addFilterAt, Expression.withFilter, distinctValidityLoop]
    | succ i =>
      simp only [addFilterAt, distinctValidityLoop]
      split
      · rfl
      · cases e with
        | BoundAggregateExpression a fn ch f0 => exact ih _ _
        | BoundColumnRefExpression a b => rfl
        | BoundConstantExpression a v => rfl
        | OtherExpression a k ch => rfl

/-- If the Expression Propagator returns for a call with the filter clause what it
returns without it, the loop over the aggregates leaves the same map. -/
theorem propagateAggregates_addFilterAt
    (PE : StatisticsMap → Expression → Option BaseStatistics) (flt : Expression)
    (hPE : ∀ m e, PE m (e.withFilter flt) = PE m e) (aggregate_index : Nat)
    (l : List Expression) :
    ∀ (i j : Nat) (m : StatisticsMap),
      propagateAggregates PE aggregate_index (addFilterAt flt l i) j m
        = propagateAggregates PE aggregate_index l j m := by
  induction l with
  | nil => intro i j m; rfl
  | cons e rest ih =>
    intro i j m
    cases i with
    | zero => simp only [addFilterAt, propagateAggregates, hPE]
    | succ i =>
      simp only [addFilterAt, propagateAggregates]
      cases PE m e with
      | none => exact ih _ _ _
      | some s => exact ih _ _ _

/-- C8 (amended): the validity computation never inspects filter clauses.  For every
aggregate whose `distinct_validity` is computed as `CANNOT_HAVE_NULL_VALUES`, putting a
filter clause on any one of its aggregate calls, everything else the same (the Expression
Propagator returning for the call what it returned without the filter), makes
`PropagateStatistics` compute `CANNOT_HAVE_NULL_VALUES` again. -/
theorem filter_keeps_distinct_validity (ext : Collaborators) (sp : StatisticsPropagator)
    (aggr : LogicalAggregate) (i : Nat) (flt : Expression)
    (hPE : ∀ m e, ext.PropagateExpression m (e.withFilter flt) = ext.PropagateExpression m e)
    (hcannot : (PropagateStatistics ext sp aggr).aggr.distinct_validity
      = .CANNOT_HAVE_NULL_VALUES) :
    (PropagateStatistics ext sp (aggr.withFilterAt i flt)).aggr.distinct_validity
      = .CANNOT_HAVE_NULL_VALUES := by
  rw [PropagateStatistics_aggr, propagateStepA_distinct_validity] at hcannot ⊢
  rw [propagateStepA_statistics_map] at hcannot ⊢
  have hmap := propagateAggregates_addFilterAt ext.PropagateExpression flt hPE
    aggr.aggregate_index aggr.expressions i 0
  simp only [LogicalAggregate.withFilterAt, mapAfterChild] at hcannot ⊢
  rw [hmap, distinctValidityLoop_addFilterAt]
  exact hcannot

/-- Witness of C8: `sum(x)` over a non-null column keeps `CANNOT_HAVE_NULL_VALUES` when
the filter `y > 0` is put on the call. -/
theorem filter_keeps_distinct_validity_witness :
    (PropagateStatistics sampleCollaborators samplePropagator
      (sumOverColumn.withFilterAt 0 sampleFilter)).aggr.distinct_validity
      = .CANNOT_HAVE_NULL_VALUES :=
  filter_keeps_distinct_validity sampleCollaborators samplePropagator sumOverColumn 0
    sampleFilter (by intro m e; cases e <;> simp only [Expression.withFilter, sampleCollaborators])
    rfl

/-- Counterexample to C8 as stated: `SELECT sum(x) FROM T` over a non-null column `x` has
validity `CANNOT_HAVE_NULL_VALUES`; with the filter `y > 0` added to the call the handler
still computes `CANNOT_HAVE_NULL_VALUES`, not `CAN_HAVE_NULL_VALUES`. -/
theorem filter_validity_counterexample :
    (PropagateStatistics sampleCollaborators samplePropagator sumOverColumn).aggr.distinct_validity
      = .CANNOT_HAVE_NULL_VALUES ∧
    (sumOverColumn.withFilterAt 0 sampleFilter).expressions
      = [.BoundAggregateExpression "sum(x)" "sum" [.BoundColumnRefExpression "x" ⟨0, 0⟩]
          (some sampleFilter)] ∧
    (PropagateStatistics sampleCollaborators samplePropagator
      (sumOverColumn.withFilterAt 0 sampleFilter)).aggr.distinct_validity
      ≠ .CAN_HAVE_NULL_VALUES :=
  ⟨rfl, rfl, fun h => TupleDataValidityType.noConfusion h⟩

/-- C9: grouping-set rule.  For an aggregate with more than one grouping set, the loop
over the groups inserts nothing into the Statistics Map, and for every group position `g`
the content of the map at `(group-output id, g)` after the handler is what it was after
child propagation, whatever the Expression Propagator returns.  The aggregate is taken
to satisfy the Column Binding invariant of the data model: no group column shares its
binding with an aggregate column. -/
theorem grouping_sets_insert_nothing (ext : Collaborators) (sp : StatisticsPropagator)
    (aggr : LogicalAggregate) (hsets : 1 < aggr.grouping_sets.length)
    (hunique : ∀ g a : Nat, g < aggr.groups.length → a < aggr.expressions.length →
      (⟨aggr.group_index, g⟩ : ColumnBinding) ≠ ⟨aggr.aggregate_index, a⟩) :
    (propagateGroups ext.PropagateExpression aggr.grouping_sets aggr.group_index aggr.groups 0
        ⟨mapAfterChild ext sp aggr,
          resizeStats aggr.group_stats aggr.groups.length⟩).statistics_map
      = mapAfterChild ext sp aggr ∧
    ∀ g : Nat, g < aggr.groups.length →
      (PropagateStatistics ext sp aggr).propagator.statistics_map ⟨aggr.group_index, g⟩
        = mapAfterChild ext sp aggr ⟨aggr.group_index, g⟩ := by
  have hloop := propagateGroups_map_of_many_sets ext.PropagateExpression aggr.grouping_sets
    aggr.group_index hsets aggr.groups 0
    ⟨mapAfterChild ext sp aggr, resizeStats aggr.group_stats aggr.groups.length⟩
  refine ⟨hloop, fun g hg => ?_⟩
  rw [PropagateStatistics_statistics_map, propagateStepA_statistics_map,
    propagateAggregates_frame _ _ _ _ _ _
      (fun a _ ha => hunique g a hg (by simpa using ha)), hloop]

/-- Witness of C9: grouping by `x` and `y` under the two grouping sets `(x)` and `(y)`
inserts nothing under the group-output id, although the propagator returns statistics
for both groups. -/
theorem grouping_sets_insert_nothing_witness :
    groupStatsReturned sampleCollaborators samplePropagator (groupedAggregate [[0], [1]]) 0
      = some ⟨false, 10⟩ ∧
    (PropagateStatistics sampleCollaborators samplePropagator
      (groupedAggregate [[0], [1]])).propagator.statistics_map ⟨1, 0⟩ = none :=
  ⟨rfl, (grouping_sets_insert_nothing sampleCollaborators samplePropagator
    (groupedAggregate [[0], [1]]) (by decide)
    (fun _ _ _ _ h => absurd (congrArg ColumnBinding.table_index h) (show (1 : Nat) ≠ 2 by decide))).2 0
    (by decide)⟩

/-- C10: group statistics.  After `PropagateStatistics` the array `group_stats` has one
slot per group; slot `g` holds exactly what the Expression Propagator returned for group
`g` (absent when it returned nothing, and without the may-contain-null flag set in the
branch for several grouping sets); and when the aggregate has at most one grouping set
and the propagator returned statistics for group `g`, the Statistics Map afterwards maps
`(group-output id, g)` to them.  For the last part the aggregate is taken to satisfy the
Column Binding invariant of the data model: no group column shares its binding with an
aggregate column. -/
theorem group_statistics (ext : Collaborators) (sp : StatisticsPropagator)
    (aggr : LogicalAggregate) :
    (PropagateStatistics ext sp aggr).aggr.group_stats.length = aggr.groups.length ∧
    (∀ g : Nat, g < aggr.groups.length →
      (PropagateStatistics ext sp aggr).aggr.group_stats[g]?
        = some (groupStatsReturned ext sp aggr g)) ∧
    (∀ (g : Nat) (s : BaseStatistics), aggr.grouping_sets.length ≤ 1 →
      (∀ g a : Nat, g < aggr.groups.length → a < aggr.expressions.length →
        (⟨aggr.group_index, g⟩ : ColumnBinding) ≠ ⟨aggr.aggregate_index, a⟩) →
      groupStatsReturned ext sp aggr g = some s →
      (PropagateStatistics ext sp aggr).propagator.statistics_map ⟨aggr.group_index, g⟩
        = some (some s)) := by
  refine ⟨?_, ?_, ?_⟩
  · rw [PropagateStatistics_aggr, propagateStepA_group_stats, propagateGroups_length]
    exact resizeStats_length _ _
  · intro g hg
    rw [PropagateStatistics_aggr, propagateStepA_group_stats,
      propagateGroups_slot _ _ _ _ _ g hg (resizeStats_length _ _)]
    simp only [groupStatsReturned, mapBeforeGroup, List.getElem?_eq_getElem hg,
      List.get_eq_getElem]
  · intro g s hsets hunique hret
    have hg : g < aggr.groups.length := by
      by_contra hge
      simp only [groupStatsReturned, List.getElem?_eq_none (Nat.not_lt.mp hge)] at hret
      exact Option.noConfusion hret
    rw [PropagateStatistics_statistics_map, propagateStepA_statistics_map,
      propagateAggregates_frame _ _ _ _ _ _
        (fun a _ ha => hunique g a hg (by simpa using ha))]
    apply propagateGroups_inserted _ _ _ _ _ g hg hsets
    simpa only [groupStatsReturned, mapBeforeGroup, List.getElem?_eq_getElem hg,
      List.get_eq_getElem] using hret

/-- Witness of C10: grouping by `x` and `y`.  Under two grouping sets slot 0 holds the
statistics of `x` as returned, not flagged; under one grouping set the map sends `(1, 1)`
to the statistics of `y`. -/
theorem group_statistics_witness :
    (PropagateStatistics sampleCollaborators samplePropagator
      (groupedAggregate [[0], [1]])).aggr.group_stats[0]?
      = some (some ⟨false, 10⟩) ∧
    (PropagateStatistics sampleCollaborators samplePropagator
      (groupedAggregate [[0, 1]])).propagator.statistics_map ⟨1, 1⟩
      = some (some ⟨true, 20⟩) :=
  ⟨(group_statistics sampleCollaborators samplePropagator (groupedAggregate [[0], [1]])).2.1
      0 (by decide),
   (group_statistics sampleCollaborators samplePropagator (groupedAggregate [[0, 1]])).2.2
      1 ⟨true, 20⟩ (by decide)
      (fun _ _ _ _ h => absurd (congrArg ColumnBinding.table_index h) (show (1 : Nat) ≠ 2 by decide)) rfl⟩

/-! ## Aggregate output statistics -/

/-- One iteration of the loop over the aggregates. -/
theorem propagateAggregates_cons
    (PE : StatisticsMap → Expression → Option BaseStatistics) (aggregate_index : Nat)
    (e : Expression) (rest : List Expression) (i : Nat) (m : StatisticsMap) :
    propagateAggregates PE aggregate_index (e :: rest) i m =
      propagateAggregates PE aggregate_index rest (i + 1)
        (match PE m e with
          | none => m
          | some s => m.insert ⟨aggregate_index, i⟩ (some s)) := by
  simp only [propagateAggregates]
  cases PE m e with
  | none => rfl
  | some s => rfl

/-- The loop over a concatenation of aggregate expressions runs the loop over the second
list from the map the loop over the first list leaves. -/
theorem propagateAggregates_append
    (PE : StatisticsMap → Expression → Option BaseStatistics) (aggregate_index : Nat)
    (l1 l2 : List Expression) :
    ∀ (i : Nat) (m : StatisticsMap),
      propagateAggregates PE aggregate_index (l1 ++ l2) i m
        = propagateAggregates PE aggregate_index l2 (i + l1.length)
            (propagateAggregates PE aggregate_index l1 i m) := by
  induction l1 with
  | nil => intro i m; rfl
  | cons e rest ih =>
    intro i m
    rw [List.cons_append, propagateAggregates_cons, propagateAggregates_cons, ih]
    simp only [List.length_cons]
    rw [Nat.add_assoc, Nat.add_comm 1]

/-- The loop over the groups, started at position `i`, writes only the bindings
`(group-output id, g)` of the positions `g` it visits. -/
theorem propagateGroups_map_frame_key
    (PE : StatisticsMap → Expression → Option BaseStatistics) (grouping_sets : List (List Nat))
    (group_index : Nat) (k : ColumnBinding) (l : List Expression) :
    ∀ (i : Nat) (st : GroupLoopState),
      (∀ g : Nat, i ≤ g → g < i + l.length → k ≠ ⟨group_index, g⟩) →
      (propagateGroups PE grouping_sets group_index l i st).statistics_map k
        = st.statistics_map k := by
  induction l with
  | nil => intro i st _; rfl
  | cons e rest ih =>
    intro i st hk
    have hrest : ∀ g : Nat, i + 1 ≤ g → g < i + 1 + rest.length →
        k ≠ ⟨group_index, g⟩ := by
      intro g h1 h2
      apply hk g (Nat.le_of_succ_le h1)
      simp only [List.length_cons]
      omega
    rw [propagateGroups_cons, ih _ _ hrest]
    cases PE st.statistics_map e with
    | none => rfl
    | some s =>
      simp only
      split
      · rfl
      · simp only [StatisticsMap.insert]
        rw [if_neg]
        apply hk i (Nat.le_refl i)
        simp only [List.length_cons]
        omega

/-- The map Step A leaves is the loop over the aggregates run from the map the loop
over the groups leaves. -/
theorem propagateStepA_statistics_map_eq (ext : Collaborators) (sp : StatisticsPropagator)
    (aggr : LogicalAggregate) :
    (propagateStepA ext sp aggr).1.statistics_map
      = propagateAggregates ext.PropagateExpression aggr.aggregate_index aggr.expressions 0
          (mapAfterGroups ext sp aggr) :=
  rfl

/-- The aggregate expressions split at position `a`. -/
theorem expressions_split (l : List Expression) (a : Nat) (ha : a < l.length) :
    l = l.take a ++ (l.get ⟨a, ha⟩ :: l.drop (a + 1)) ∧ (l.take a).length = a := by
  constructor
  · rw [List.get_eq_getElem, ← List.drop_eq_getElem_cons ha, List.take_append_drop]
  · rw [List.length_take]
    omega

/-- After the loop over the aggregates the binding `(aggregate-output id, a)` holds the
statistics returned at iteration `a`, or what it held before the loop when nothing was
returned. -/
theorem propagateAggregates_at
    (PE : StatisticsMap → Expression → Option BaseStatistics) (aggregate_index : Nat)
    (l : List Expression) (m : StatisticsMap) (a : Nat) (ha : a < l.length) :
    propagateAggregates PE aggregate_index l 0 m ⟨aggregate_index, a⟩
      = match PE (propagateAggregates PE aggregate_index (l.take a) 0 m) (l.get ⟨a, ha⟩) with
        | none => m ⟨aggregate_index, a⟩
        | some s => some (some s) := by
  obtain ⟨hsplit, htake⟩ := expressions_split l a ha
  have hbefore : propagateAggregates PE aggregate_index (l.take a) 0 m ⟨aggregate_index, a⟩
      = m ⟨aggregate_index, a⟩ := by
    apply propagateAggregates_frame
    intro a2 _ h2 heq
    rw [htake] at h2
    have := congrArg ColumnBinding.column_index heq
    simp only at this
    omega
  conv => lhs; rw [hsplit]
  rw [propagateAggregates_append, propagateAggregates_cons, htake, Nat.zero_add,
    propagateAggregates_frame]
  · cases PE (propagateAggregates PE aggregate_index (l.take a) 0 m) (l.get ⟨a, ha⟩) with
    | none => exact hbefore
    | some s => simp [StatisticsMap.insert]
  · intro a2 h1 _ heq
    have := congrArg ColumnBinding.column_index heq
    simp only at this
    omega

/-- C11: aggregate output statistics.  For every aggregate and every aggregate position
`a`: if the Expression Propagator returns statistics for the `a`-th aggregate expression,
the Statistics Map after `PropagateStatistics` maps `(aggregate-output id, a)` to them;
if it returns nothing, the loop over the aggregates leaves that key as the loop over the
groups left it, and the handler as a whole leaves it as child propagation left it when no
group column has that binding.  Nothing depends on the number of grouping sets. -/
theorem aggregate_output_statistics (ext : Collaborators) (sp : StatisticsPropagator)
    (aggr : LogicalAggregate) :
    (∀ (a : Nat) (s : BaseStatistics), aggregateStatsReturned ext sp aggr a = some s →
      (PropagateStatistics ext sp aggr).propagator.statistics_map ⟨aggr.aggregate_index, a⟩
        = some (some s)) ∧
    (∀ a : Nat, a < aggr.expressions.length → aggregateStatsReturned ext sp aggr a = none →
      (PropagateStatistics ext sp aggr).propagator.statistics_map ⟨aggr.aggregate_index, a⟩
          = mapAfterGroups ext sp aggr ⟨aggr.aggregate_index, a⟩ ∧
      ((∀ g : Nat, g < aggr.groups.length →
          (⟨aggr.group_index, g⟩ : ColumnBinding) ≠ ⟨aggr.aggregate_index, a⟩) →
        (PropagateStatistics ext sp aggr).propagator.statistics_map ⟨aggr.aggregate_index, a⟩
          = mapAfterChild ext sp aggr ⟨aggr.aggregate_index, a⟩)) := by
  constructor
  · intro a s hret
    have ha : a < aggr.expressions.length := by
      by_contra hge
      simp only [aggregateStatsReturned, List.getElem?_eq_none (Nat.not_lt.mp hge)] at hret
      exact Option.noConfusion hret
    simp only [aggregateStatsReturned, mapBeforeAggregate, List.getElem?_eq_getElem ha] at hret
    rw [PropagateStatistics_statistics_map, propagateStepA_statistics_map_eq,
      propagateAggregates_at _ _ _ _ a ha, List.get_eq_getElem, hret]
  · intro a ha hret
    simp only [aggregateStatsReturned, mapBeforeAggregate, List.getElem?_eq_getElem ha] at hret
    have hfinal : (PropagateStatistics ext sp aggr).propagator.statistics_map
        ⟨aggr.aggregate_index, a⟩ = mapAfterGroups ext sp aggr ⟨aggr.aggregate_index, a⟩ := by
      rw [PropagateStatistics_statistics_map, propagateStepA_statistics_map_eq,
        propagateAggregates_at _ _ _ _ a ha, List.get_eq_getElem, hret]
    refine ⟨hfinal, fun hunique => ?_⟩
    rw [hfinal]
    simp only [mapAfterGroups]
    rw [propagateGroups_map_frame_key]
    intro g _ hg
    exact (hunique g (by simpa using hg)).symm

/-- Witness of C11: for `SELECT count(*) FROM E` the propagator returns statistics for
the aggregate and the map holds them under `(2, 0)`; for `SELECT sum(x) FROM T` it
returns nothing and `(2, 0)` is as child propagation left it. -/
theorem aggregate_output_statistics_witness :
    (PropagateStatistics emptyChildCollaborators samplePropagator
      countOverEmptyScan).propagator.statistics_map ⟨2, 0⟩ = some (some ⟨false, 5⟩) ∧
    (PropagateStatistics sampleCollaborators samplePropagator
      sumOverColumn).propagator.statistics_map ⟨2, 0⟩
      = mapAfterChild sampleCollaborators samplePropagator sumOverColumn ⟨2, 0⟩ :=
  ⟨(aggregate_output_statistics emptyChildCollaborators samplePropagator
      countOverEmptyScan).1 0 ⟨false, 5⟩ rfl,
   ((aggregate_output_statistics sampleCollaborators samplePropagator
      sumOverColumn).2 0 (by decide) rfl).2 (fun g hg => absurd hg (Nat.not_lt_zero g))⟩

/-! ## Node statistics and unavailable partition statistics -/

/-- The handler raises exactly when `TryExecuteAggregates` does. -/
theorem PropagateStatistics_raised (ext : Collaborators) (sp : StatisticsPropagator)
    (aggr : LogicalAggregate) :
    (PropagateStatistics ext sp aggr).raised
      = (TryExecuteAggregates (propagateStepA ext sp aggr).1 (propagateStepA ext sp aggr).2
          (propagateStepA ext sp aggr).2.toOperator).raised := by
  unfold PropagateStatistics
  simp only
  split
  · next e he => rw [he]
  · next he => rw [he]

/-- The slot after the handler is the slot `TryExecuteAggregates` leaves. -/
theorem PropagateStatistics_node_ptr (ext : Collaborators) (sp : StatisticsPropagator)
    (aggr : LogicalAggregate) :
    (PropagateStatistics ext sp aggr).node_ptr
      = (TryExecuteAggregates (propagateStepA ext sp aggr).1 (propagateStepA ext sp aggr).2
          (propagateStepA ext sp aggr).2.toOperator).node_ptr := by
  unfold PropagateStatistics
  simp only
  split <;> rfl

/-- When the handler returns, it returns the Node Statistics of the child. -/
theorem PropagateStatistics_node_stats (ext : Collaborators) (sp : StatisticsPropagator)
    (aggr : LogicalAggregate)
    (hreturns : (PropagateStatistics ext sp aggr).raised = none) :
    (PropagateStatistics ext sp aggr).node_stats = (ext.PropagateOperator sp aggr.child).2.2 := by
  unfold PropagateStatistics at hreturns ⊢
  simp only at hreturns ⊢
  split
  · next e he =>
    rw [he] at hreturns
    exact Option.noConfusion hreturns
  · simp only
    rw [(TryExecuteAggregates_frame _ _ _).2.1]
    rfl

/-- C12: Node Statistics pass-through.  Whenever the handler returns, the Node Statistics
it returns are those obtained from propagating the child (absent when the child's are
absent): both when the rewrite does not fire and when it replaces the node, and a
handler that replaced the node has returned. -/
theorem node_statistics_pass_through (ext : Collaborators) (sp : StatisticsPropagator)
    (aggr : LogicalAggregate) :
    ((PropagateStatistics ext sp aggr).raised = none →
      (PropagateStatistics ext sp aggr).node_stats
        = (ext.PropagateOperator sp aggr.child).2.2) ∧
    ((PropagateStatistics ext sp aggr).node_ptr ≠ (PropagateStatistics ext sp aggr).aggr.toOperator →
      (PropagateStatistics ext sp aggr).raised = none ∧
      (PropagateStatistics ext sp aggr).node_stats
        = (ext.PropagateOperator sp aggr.child).2.2) := by
  refine ⟨PropagateStatistics_node_stats ext sp aggr, fun hreplaced => ?_⟩
  have hraised : (PropagateStatistics ext sp aggr).raised = none := by
    rw [PropagateStatistics_node_ptr, PropagateStatistics_aggr] at hreplaced
    rw [PropagateStatistics_raised]
    rcases TryExecuteAggregates_cases (propagateStepA ext sp aggr).1 (propagateStepA ext sp aggr).2
        (propagateStepA ext sp aggr).2.toOperator with
      ⟨h, _⟩ | ⟨g, f, _, _, _, _, _, ⟨h, _⟩ | ⟨_, _, _, h⟩ | ⟨_, _, _, h⟩⟩
    · rw [h]
    · rw [h]
    · rw [h]
    · rw [h] at hreplaced
      exact absurd rfl hreplaced
  exact ⟨hraised, PropagateStatistics_node_stats ext sp aggr hraised⟩

/-- Witness of C12: the bound 1,000 of the child is returned both for the aggregate over
the filtered scan, which is left in place, and for the aggregate over the exact scan,
which is replaced. -/
theorem node_statistics_pass_through_witness :
    (PropagateStatistics sampleCollaborators samplePropagator countOverFilteredScan).node_stats
      = some ⟨1000⟩ ∧
    ((PropagateStatistics sampleCollaborators samplePropagator countOverExactScan).raised = none ∧
      (PropagateStatistics sampleCollaborators samplePropagator countOverExactScan).node_stats
        = some ⟨1000⟩) :=
  ⟨(node_statistics_pass_through sampleCollaborators samplePropagator
      countOverFilteredScan).1 rfl,
   (node_statistics_pass_through sampleCollaborators samplePropagator
      countOverExactScan).2 (fun h => LogicalOperator.noConfusion h)⟩

/-- C13: unavailable statistics fall back silently.  If the operator reached by
unwrapping the child through projections is not a base scan, or that scan exposes no
provider, or the provider returns an empty sequence, `TryExecuteAggregates` returns
normally with the slot holding the node it held.  And the provider is queried only when
every structural precondition holds (no groups, base scan, provider present, no table
filters, all aggregates filter-less `count_star` calls), then exactly once, with the
bound metadata of the scan: otherwise the log of queries is as it was. -/
theorem unavailable_statistics_fall_back (sp : StatisticsPropagator) (aggr : LogicalAggregate)
    (node_ptr : LogicalOperator) :
    (((∀ g, skipProjections aggr.child ≠ .get g) ∨
        (∃ g, skipProjections aggr.child = .get g ∧ g.function.get_partition_stats = none) ∨
        (∃ g f, skipProjections aggr.child = .get g ∧
          g.function.get_partition_stats = some f ∧
          f sp.context ⟨g.function.name, g.bind_data⟩ = [])) →
      (TryExecuteAggregates sp aggr node_ptr).node_ptr = node_ptr ∧
      (TryExecuteAggregates sp aggr node_ptr).raised = none) ∧
    (((TryExecuteAggregates sp aggr node_ptr).propagator.partition_stats_queries
          = sp.partition_stats_queries ∧
        (aggr.groups ≠ [] ∨ (∀ g, skipProjections aggr.child ≠ .get g) ∨
          (∃ g, skipProjections aggr.child = .get g ∧
            (g.function.get_partition_stats = none ∨ g.table_filters.filters ≠ [])) ∨
          ¬ ∀ e ∈ aggr.expressions,
            ∃ a c, e = Expression.BoundAggregateExpression a "count_star" c none)) ∨
      (∃ (g : LogicalGet)
          (f : ClientContext → GetPartitionStatsInput → List PartitionStatistics),
        aggr.groups = [] ∧ skipProjections aggr.child = .get g ∧
        g.function.get_partition_stats = some f ∧ g.table_filters.filters = [] ∧
        (∀ e ∈ aggr.expressions,
          ∃ a c, e = Expression.BoundAggregateExpression a "count_star" c none) ∧
        (TryExecuteAggregates sp aggr node_ptr).propagator.partition_stats_queries
          = sp.partition_stats_queries ++ [⟨g.function.name, g.bind_data⟩])) := by
  constructor
  · intro h
    rcases TryExecuteAggregates_cases sp aggr node_ptr with
      ⟨hT, _⟩ | ⟨g, f, _, hscan, hprov, _, _, ⟨hT, _⟩ | ⟨hne, _, _, _⟩ | ⟨_, hbig, _, _⟩⟩
    · rw [hT]; exact ⟨rfl, rfl⟩
    · rw [hT]; exact ⟨rfl, rfl⟩
    · rcases h with h | ⟨g2, hs2, hp2⟩ | ⟨g2, f2, hs2, hp2, hempty⟩
      · exact absurd hscan (h g)
      · rw [hscan] at hs2
        simp only [LogicalOperator.get.injEq] at hs2
        subst hs2
        rw [hprov] at hp2
        exact Option.noConfusion hp2
      · rw [hscan] at hs2
        simp only [LogicalOperator.get.injEq] at hs2
        subst hs2
        rw [hprov] at hp2
        simp only [Option.some.injEq] at hp2
        subst hp2
        exact absurd hempty hne
    · rcases h with h | ⟨g2, hs2, hp2⟩ | ⟨g2, f2, hs2, hp2, hempty⟩
      · exact absurd hscan (h g)
      · rw [hscan] at hs2
        simp only [LogicalOperator.get.injEq] at hs2
        subst hs2
        rw [hprov] at hp2
        exact Option.noConfusion hp2
      · rw [hscan] at hs2
        simp only [LogicalOperator.get.injEq] at hs2
        subst hs2
        rw [hprov] at hp2
        simp only [Option.some.injEq] at hp2
        subst hp2
        rw [hempty] at hbig
        simp [INT64_MAX] at hbig
  · rcases TryExecuteAggregates_cases sp aggr node_ptr with
      ⟨hT, hfail⟩ | ⟨g, f, hgroups, hscan, hprov, hfilters, hcount,
        ⟨hT, _⟩ | ⟨_, _, _, hT⟩ | ⟨_, _, _, hT⟩⟩
    · refine Or.inl ⟨by rw [hT], ?_⟩
      rcases hfail with h | h | h | h
      · exact Or.inl h
      · exact Or.inr (Or.inl h)
      · exact Or.inr (Or.inr (Or.inl h))
      · refine Or.inr (Or.inr (Or.inr ?_))
        intro hall
        rw [(allCountStar_iff _).mpr hall] at h
        exact Bool.noConfusion h
    · exact Or.inr ⟨g, f, hgroups, hscan, hprov, hfilters, (allCountStar_iff _).mp hcount,
        by rw [hT]⟩
    · exact Or.inr ⟨g, f, hgroups, hscan, hprov, hfilters, (allCountStar_iff _).mp hcount,
        by rw [hT]⟩
    · exact Or.inr ⟨g, f, hgroups, hscan, hprov, hfilters, (allCountStar_iff _).mp hcount,
        by rw [hT]⟩

/-- Witness of C13: over a `LIMIT` the child is not a scan, and the aggregate stays. -/
theorem unavailable_statistics_fall_back_witness :
    (TryExecuteAggregates samplePropagator countOverLimit countOverLimit.toOperator).node_ptr
      = countOverLimit.toOperator ∧
    (TryExecuteAggregates samplePropagator countOverLimit countOverLimit.toOperator).raised
      = none :=
  (unavailable_statistics_fall_back samplePropagator countOverLimit
    countOverLimit.toOperator).1
    (Or.inl (fun _ h => LogicalOperator.noConfusion h))

/-! ## The returned row-count bound and the frame of the Statistics Map -/

/-- C14: the returned bound at an empty input.  For `SELECT count(*) FROM E` over an empty
table the child produces 0 rows and child propagation reports the bound 0, a true upper
bound; the handler returns normally, leaves the aggregate in the slot and returns that
bound 0, while executing the aggregate produces exactly one row. -/
theorem row_count_bound_at_empty_input :
    (execute noRows sampleEvaluator countOverEmptyScan.child).map List.length = some 0 ∧
    (emptyChildCollaborators.PropagateOperator samplePropagator countOverEmptyScan.child).2.2
      = some ⟨0⟩ ∧
    (PropagateStatistics emptyChildCollaborators samplePropagator countOverEmptyScan).raised
      = none ∧
    (PropagateStatistics emptyChildCollaborators samplePropagator countOverEmptyScan).node_ptr.type
      = LogicalOperatorType.LOGICAL_AGGREGATE_AND_GROUP_BY ∧
    (PropagateStatistics emptyChildCollaborators samplePropagator countOverEmptyScan).node_stats
      = some ⟨0⟩ ∧
    (execute noRows sampleEvaluator
      (PropagateStatistics emptyChildCollaborators samplePropagator
        countOverEmptyScan).node_ptr).map List.length = some 1 :=
  ⟨rfl, rfl, rfl, rfl, rfl, rfl⟩

/-- The loop over the groups never removes a binding from the map. -/
theorem propagateGroups_present
    (PE : StatisticsMap → Expression → Option BaseStatistics) (grouping_sets : List (List Nat))
    (group_index : Nat) (k : ColumnBinding) (l : List Expression) :
    ∀ (i : Nat) (st : GroupLoopState), st.statistics_map k ≠ none →
      (propagateGroups PE grouping_sets group_index l i st).statistics_map k ≠ none := by
  induction l with
  | nil => intro i st h; exact h
  | cons e rest ih =>
    intro i st h
    rw [propagateGroups_cons]
    apply ih
    cases PE st.statistics_map e with
    | none => exact h
    | some s =>
      simp only
      split
      · exact h
      · simp only [StatisticsMap.insert]
        split
        · exact fun hn => Option.noConfusion hn
        · exact h

/-- The loop over the aggregates never removes a binding from the map. -/
theorem propagateAggregates_present
    (PE : StatisticsMap → Expression → Option BaseStatistics) (aggregate_index : Nat)
    (k : ColumnBinding) (l : List Expression) :
    ∀ (i : Nat) (m : StatisticsMap), m k ≠ none →
      propagateAggregates PE aggregate_index l i m k ≠ none := by
  induction l with
  | nil => intro i m h; exact h
  | cons e rest ih =>
    intro i m h
    rw [propagateAggregates_cons]
    apply ih
    cases PE m e with
    | none => exact h
    | some s =>
      simp only [StatisticsMap.insert]
      split
      · exact fun hn => Option.noConfusion hn
      · exact h

/-- C15: the Statistics Map is additive and written only under the ids of the handler.
Comparing the map after child propagation with the map after the handler: every binding
present before is still present, and every binding whose operator id is neither the
group-output id nor the aggregate-output id of the aggregate maps to what it mapped to
before. -/
theorem statistics_map_additive (ext : Collaborators) (sp : StatisticsPropagator)
    (aggr : LogicalAggregate) :
    (∀ k : ColumnBinding, mapAfterChild ext sp aggr k ≠ none →
      (PropagateStatistics ext sp aggr).propagator.statistics_map k ≠ none) ∧
    (∀ k : ColumnBinding, k.table_index ≠ aggr.group_index →
      k.table_index ≠ aggr.aggregate_index →
      (PropagateStatistics ext sp aggr).propagator.statistics_map k
        = mapAfterChild ext sp aggr k) := by
  constructor
  · intro k hk
    rw [PropagateStatistics_statistics_map, propagateStepA_statistics_map_eq]
    apply propagateAggregates_present
    simp only [mapAfterGroups]
    exact propagateGroups_present _ _ _ _ _ _ _ hk
  · intro k hg ha
    rw [PropagateStatistics_statistics_map, propagateStepA_statistics_map_eq,
      propagateAggregates_frame]
    · simp only [mapAfterGroups]
      exact propagateGroups_map_frame _ _ _ _ _ _ _ (Or.inl hg)
    · intro a _ _ heq
      rw [heq] at ha
      exact ha rfl

/-- Witness of C15: grouping by `x` and `y`, the statistics of the scan column `(0, 0)`
are in the map after the handler as child propagation left them. -/
theorem statistics_map_additive_witness :
    (PropagateStatistics sampleCollaborators samplePropagator
        (groupedAggregate [[0, 1]])).propagator.statistics_map ⟨0, 0⟩ ≠ none ∧
    (PropagateStatistics sampleCollaborators samplePropagator
        (groupedAggregate [[0, 1]])).propagator.statistics_map ⟨0, 0⟩
      = mapAfterChild sampleCollaborators samplePropagator (groupedAggregate [[0, 1]]) ⟨0, 0⟩ :=
  ⟨(statistics_map_additive sampleCollaborators samplePropagator
      (groupedAggregate [[0, 1]])).1 ⟨0, 0⟩ (fun h => Option.noConfusion h),
   (statistics_map_additive sampleCollaborators samplePropagator
      (groupedAggregate [[0, 1]])).2 ⟨0, 0⟩ (show (0 : Nat) ≠ 1 by decide)
      (show (0 : Nat) ≠ 2 by decide)⟩

/-- C16: Step A stands independently of Step B.  `TryExecuteAggregates` changes neither
the Statistics Map nor the stored Node Statistics; after the handler the map and the
aggregate with its `group_stats` and `distinct_validity` are those Step A computed,
whether the rewrite aborts, replaces the node or raises; the groups, expressions and ids
of the aggregate are the original ones and its child is the one child propagation left;
and unless the slot holds the replacement it holds that very aggregate. -/
theorem step_a_stands (ext : Collaborators) (sp : StatisticsPropagator)
    (aggr : LogicalAggregate) (node_ptr : LogicalOperator) :
    ((TryExecuteAggregates sp aggr node_ptr).propagator.statistics_map = sp.statistics_map ∧
      (TryExecuteAggregates sp aggr node_ptr).propagator.node_stats = sp.node_stats) ∧
    ((PropagateStatistics ext sp aggr).propagator.statistics_map
        = (propagateStepA ext sp aggr).1.statistics_map ∧
      (PropagateStatistics ext sp aggr).aggr.group_stats
        = (propagateStepA ext sp aggr).2.group_stats ∧
      (PropagateStatistics ext sp aggr).aggr.distinct_validity
        = (propagateStepA ext sp aggr).2.distinct_validity) ∧
    ((PropagateStatistics ext sp aggr).aggr.groups = aggr.groups ∧
      (PropagateStatistics ext sp aggr).aggr.expressions = aggr.expressions ∧
      (PropagateStatistics ext sp aggr).aggr.grouping_sets = aggr.grouping_sets ∧
      (PropagateStatistics ext sp aggr).aggr.group_index = aggr.group_index ∧
      (PropagateStatistics ext sp aggr).aggr.aggregate_index = aggr.aggregate_index ∧
      (PropagateStatistics ext sp aggr).aggr.child = (ext.PropagateOperator sp aggr.child).2.1) ∧
    ((PropagateStatistics ext sp aggr).node_ptr = (PropagateStatistics ext sp aggr).aggr.toOperator ∨
      ∃ types row, (PropagateStatistics ext sp aggr).node_ptr
        = .expressionGet aggr.aggregate_index types [row] [.dummyScan aggr.group_index]) := by
  refine ⟨⟨(TryExecuteAggregates_frame sp aggr node_ptr).1,
      (TryExecuteAggregates_frame sp aggr node_ptr).2.1⟩,
    ⟨PropagateStatistics_statistics_map ext sp aggr, ?_, ?_⟩, ?_, ?_⟩
  · rw [PropagateStatistics_aggr]
  · rw [PropagateStatistics_aggr]
  · rw [PropagateStatistics_aggr]
    exact ⟨rfl, rfl, rfl, rfl, rfl, rfl⟩
  · rw [PropagateStatistics_node_ptr, PropagateStatistics_aggr]
    rcases TryExecuteAggregates_cases (propagateStepA ext sp aggr).1 (propagateStepA ext sp aggr).2
        (propagateStepA ext sp aggr).2.toOperator with
      ⟨h, _⟩ | ⟨g, f, _, _, _, _, _, ⟨h, _⟩ | ⟨_, _, _, h⟩ | ⟨_, _, _, h⟩⟩
    · rw [h]; exact Or.inl rfl
    · rw [h]; exact Or.inl rfl
    · rw [h]; exact Or.inr ⟨_, _, rfl⟩
    · rw [h]; exact Or.inl rfl

/-! ## Projections and monotonicity of the validity -/

/-- Skipping projections goes through a chain of projections put on top. -/
theorem skipProjections_wrapProjections (chain : List (Nat × List Expression))
    (op : LogicalOperator) :
    skipProjections (wrapProjections chain op) = skipProjections op := by
  induction chain with
  | nil => rfl
  | cons p rest ih =>
    obtain ⟨t, es⟩ := p
    simp only [wrapProjections, skipProjections]
    exact ih

/-- The loop of lines 19-22 stops at an operator that is not a projection. -/
theorem skipProjections_type :
    ∀ op : LogicalOperator, (skipProjections op).type ≠ LogicalOperatorType.LOGICAL_PROJECTION
  | .get _ => by simp [skipProjections, LogicalOperator.type]
  | .projection _ _ child => by
    simp only [skipProjections]
    exact skipProjections_type child
  | .aggregate _ _ => by simp [skipProjections, LogicalOperator.type]
  | .dummyScan _ => by simp [skipProjections, LogicalOperator.type]
  | .expressionGet _ _ _ _ => by simp [skipProjections, LogicalOperator.type]
  | .other t _ => by cases t <;> simp [skipProjections, LogicalOperator.type]

/-- Every operator is a chain of projections on top of the operator the loop of lines
19-22 stops at, so that operator is the first non-projection along first children. -/
theorem exists_chain_of_skipProjections :
    ∀ op : LogicalOperator,
      ∃ chain : List (Nat × List Expression), op = wrapProjections chain (skipProjections op)
  | .get g => ⟨[], rfl⟩
  | .projection t es child => by
    obtain ⟨chain, hchain⟩ := exists_chain_of_skipProjections child
    refine ⟨(t, es) :: chain, ?_⟩
    simp only [wrapProjections, skipProjections]
    rw [← hchain]
  | .aggregate _ _ => ⟨[], rfl⟩
  | .dummyScan _ => ⟨[], rfl⟩
  | .expressionGet _ _ _ _ => ⟨[], rfl⟩
  | .other _ _ => ⟨[], rfl⟩

/-- `TryExecuteAggregates` sees the child only through the loop of lines 19-22. -/
theorem TryExecuteAggregates_withProjections (sp : StatisticsPropagator)
    (aggr : LogicalAggregate) (chain : List (Nat × List Expression))
    (node_ptr : LogicalOperator) :
    TryExecuteAggregates sp (aggr.withProjections chain) node_ptr
      = TryExecuteAggregates sp aggr node_ptr := by
  unfold TryExecuteAggregates
  simp only [LogicalAggregate.withProjections, skipProjections_wrapProjections]

/-- With every precondition met and an empty or approximate list of partitions, only the
log of queries changes. -/
theorem TryExecuteAggregates_aborts (sp : StatisticsPropagator)
    (aggr : LogicalAggregate) (node_ptr : LogicalOperator) (g : LogicalGet)
    (f : ClientContext → GetPartitionStatsInput → List PartitionStatistics)
    (hgroups : aggr.groups = []) (hscan : skipProjections aggr.child = .get g)
    (hprov : g.function.get_partition_stats = some f)
    (hfilters : g.table_filters.filters = [])
    (hcount : allCountStar aggr.expressions = true)
    (h : f sp.context ⟨g.function.name, g.bind_data⟩ = [] ∨
      ∃ s ∈ f sp.context ⟨g.function.name, g.bind_data⟩,
        s.count_type = CountType.COUNT_APPROXIMATE) :
    TryExecuteAggregates sp aggr node_ptr =
      ⟨{ sp with partition_stats_queries :=
            sp.partition_stats_queries ++ [⟨g.function.name, g.bind_data⟩] },
        node_ptr, none⟩ := by
  rw [TryExecuteAggregates_of_preconditions sp aggr node_ptr g f hgroups hscan hprov hfilters
    hcount]
  rcases h with hempty | happrox
  · simp [hempty]
  · have hnone := (sumPartitionCounts_eq_none_iff _ 0).mpr happrox
    simp only [hnone]
    split <;> rfl

/-- What `TryExecuteAggregates` does with the slot does not depend on what the slot
holds: it either leaves it or puts a constant-row producer determined by the aggregate
and the propagator. -/
theorem TryExecuteAggregates_uniform (sp : StatisticsPropagator) (aggr : LogicalAggregate) :
    ∃ (p : StatisticsPropagator) (replacement : Option LogicalOperator)
      (r : Option Exception),
      (∀ n, TryExecuteAggregates sp aggr n = ⟨p, replacement.getD n, r⟩) ∧
      (∀ x, replacement = some x →
        ∃ types expressions children,
          x = .expressionGet aggr.aggregate_index types expressions children) := by
  rcases TryExecuteAggregates_cases sp aggr (.dummyScan 0) with
    ⟨_, hfail⟩ | ⟨g, f, hgroups, hscan, hprov, hfilters, hcount,
      ⟨_, h⟩ | ⟨hne, hexact, hfit, _⟩ | ⟨hexact, hbig, hexprs, _⟩⟩
  · exact ⟨sp, none, none,
      fun n => TryExecuteAggregates_of_failed_precondition sp aggr n hfail,
      fun x hx => Option.noConfusion hx⟩
  · exact ⟨_, none, none,
      fun n => TryExecuteAggregates_aborts sp aggr n g f hgroups hscan hprov hfilters hcount h,
      fun x hx => Option.noConfusion hx⟩
  · refine ⟨_, some _, none,
      fun n => TryExecuteAggregates_replaces sp aggr n g f hgroups hscan hprov hfilters hcount
        hne hexact hfit, ?_⟩
    intro x hx
    simp only [Option.some.injEq] at hx
    exact ⟨_, _, _, hx.symm⟩
  · exact ⟨_, none, _,
      fun n => TryExecuteAggregates_raises sp aggr n g f hgroups hscan hprov hfilters hcount
        hexact hbig hexprs,
      fun x hx => Option.noConfusion hx⟩

/-- C17: projections are transparent to the rewrite.  The loop of lines 19-22 is total
and stops at the first operator along first children that is not a projection; and
inserting any chain of projections between the aggregate and its child changes neither
the operator the loop stops at, nor the outcome of `TryExecuteAggregates` on a given
slot, nor (the slot holding the aggregate itself) whether the aggregate is replaced,
the replacement node, or whether it raises. -/
theorem projections_transparent (sp : StatisticsPropagator) (aggr : LogicalAggregate)
    (chain : List (Nat × List Expression)) (node_ptr : LogicalOperator) :
    (∀ op : LogicalOperator,
      (skipProjections op).type ≠ LogicalOperatorType.LOGICAL_PROJECTION ∧
      ∃ c : List (Nat × List Expression), op = wrapProjections c (skipProjections op)) ∧
    skipProjections (aggr.withProjections chain).child = skipProjections aggr.child ∧
    TryExecuteAggregates sp (aggr.withProjections chain) node_ptr
      = TryExecuteAggregates sp aggr node_ptr ∧
    ((TryExecuteAggregates sp (aggr.withProjections chain)
          (aggr.withProjections chain).toOperator).node_ptr
        = (aggr.withProjections chain).toOperator ↔
      (TryExecuteAggregates sp aggr aggr.toOperator).node_ptr = aggr.toOperator) ∧
    ((TryExecuteAggregates sp aggr aggr.toOperator).node_ptr ≠ aggr.toOperator →
      (TryExecuteAggregates sp (aggr.withProjections chain)
          (aggr.withProjections chain).toOperator).node_ptr
        = (TryExecuteAggregates sp aggr aggr.toOperator).node_ptr) ∧
    (TryExecuteAggregates sp (aggr.withProjections chain)
        (aggr.withProjections chain).toOperator).raised
      = (TryExecuteAggregates sp aggr aggr.toOperator).raised := by
  obtain ⟨p, replacement, r, hall, hshape⟩ := TryExecuteAggregates_uniform sp aggr
  refine ⟨fun op => ⟨skipProjections_type op, exists_chain_of_skipProjections op⟩,
    skipProjections_wrapProjections chain aggr.child,
    TryExecuteAggregates_withProjections sp aggr chain node_ptr, ?_, ?_, ?_⟩
  · rw [TryExecuteAggregates_withProjections, hall, hall]
    cases replacement with
    | none => simp
    | some x =>
      obtain ⟨types, expressions, children, hx⟩ := hshape x rfl
      simp [hx, LogicalAggregate.toOperator]
  · intro hreplaced
    rw [TryExecuteAggregates_withProjections, hall, hall] at *
    cases replacement with
    | none => exact absurd rfl hreplaced
    | some x => rfl
  · rw [TryExecuteAggregates_withProjections, hall, hall]

/-- Witness of C17: with two more projections under the aggregate the rewrite installs
the node it installs without them. -/
theorem projections_transparent_witness :
    (TryExecuteAggregates samplePropagator countOverProjectedScan
        countOverProjectedScan.toOperator).node_ptr
      = (TryExecuteAggregates samplePropagator countOverExactScan
          countOverExactScan.toOperator).node_ptr :=
  (projections_transparent samplePropagator countOverExactScan
    [(8, [.BoundColumnRefExpression "x" ⟨0, 0⟩]), (9, [])]
    countOverExactScan.toOperator).2.2.2.2.1 (fun h => LogicalOperator.noConfusion h)

/-- A validity that is not `CANNOT_HAVE_NULL_VALUES` is `CAN_HAVE_NULL_VALUES`. -/
theorem TupleDataValidityType.can_of_not_cannot (v : TupleDataValidityType)
    (h : v ≠ .CANNOT_HAVE_NULL_VALUES) : v = .CAN_HAVE_NULL_VALUES := by
  cases v with
  | CAN_HAVE_NULL_VALUES => rfl
  | CANNOT_HAVE_NULL_VALUES => exact absurd rfl h

/-- The validity computed against a map is `CANNOT_HAVE_NULL_VALUES` exactly when every
aggregate expression is an aggregate call whose arguments are all column references
with present statistics that cannot have null. -/
theorem distinctValidityAgainst_cannot_iff (m : StatisticsMap) (aggr : LogicalAggregate) :
    distinctValidityAgainst m aggr = .CANNOT_HAVE_NULL_VALUES ↔
      ∀ e ∈ aggr.expressions, ∃ a fn children flt,
        e = Expression.BoundAggregateExpression a fn children flt ∧
        ∀ c ∈ children, ∃ ca binding stats,
          c = Expression.BoundColumnRefExpression ca binding ∧
          m binding = some (some stats) ∧ stats.CanHaveNull = false := by
  unfold distinctValidityAgainst
  rw [distinctValidityLoop_eq_fold]
  exact distinctValidityFold_cannot_iff m aggr.expressions

/-- If a map agrees with `m` except at one binding, where it holds no statistics that
cannot have null, then the validity computed against it is conservative whenever the
validity computed against `m` is, and whenever an argument references that binding. -/
theorem distinctValidityAgainst_of_weaker (m weaker : StatisticsMap) (k : ColumnBinding)
    (aggr : LogicalAggregate)
    (hsame : ∀ b, b ≠ k → weaker b = m b)
    (hk : ∀ s, weaker k = some (some s) → s.CanHaveNull = true) :
    (distinctValidityAgainst m aggr = .CAN_HAVE_NULL_VALUES →
      distinctValidityAgainst weaker aggr = .CAN_HAVE_NULL_VALUES) ∧
    ((∃ e ∈ aggr.expressions, ∃ a fn children flt,
        e = Expression.BoundAggregateExpression a fn children flt ∧
        ∃ c ∈ children, ∃ ca, c = Expression.BoundColumnRefExpression ca k) →
      distinctValidityAgainst weaker aggr = .CAN_HAVE_NULL_VALUES) := by
  constructor
  · intro hcan
    apply TupleDataValidityType.can_of_not_cannot
    intro hcannot
    have hm : distinctValidityAgainst m aggr = .CANNOT_HAVE_NULL_VALUES := by
      rw [distinctValidityAgainst_cannot_iff] at hcannot ⊢
      intro e he
      obtain ⟨a, fn, children, flt, heq, hch⟩ := hcannot e he
      refine ⟨a, fn, children, flt, heq, fun c hc => ?_⟩
      obtain ⟨ca, binding, stats, hceq, hw, hnn⟩ := hch c hc
      refine ⟨ca, binding, stats, hceq, ?_, hnn⟩
      by_cases hb : binding = k
      · subst hb
        have := hk stats hw
        rw [hnn] at this
        exact Bool.noConfusion this
      · rw [← hsame binding hb]
        exact hw
    rw [hm] at hcan
    exact TupleDataValidityType.noConfusion hcan
  · rintro ⟨e, he, a, fn, children, flt, heq, c, hc, ca, hceq⟩
    apply TupleDataValidityType.can_of_not_cannot
    intro hcannot
    rw [distinctValidityAgainst_cannot_iff] at hcannot
    obtain ⟨a2, fn2, children2, flt2, heq2, hch⟩ := hcannot e he
    rw [heq] at heq2
    simp only [Expression.BoundAggregateExpression.injEq] at heq2
    obtain ⟨_, _, hchildren, _⟩ := heq2
    subst hchildren
    obtain ⟨ca2, binding, stats, hceq2, hw, hnn⟩ := hch c hc
    rw [hceq] at hceq2
    simp only [Expression.BoundColumnRefExpression.injEq] at hceq2
    obtain ⟨_, hbind⟩ := hceq2
    subst hbind
    have := hk stats hw
    rw [hnn] at this
    exact Bool.noConfusion this

/-- C18: distinct-validity monotonicity in the statistics.  For every aggregate, every
Statistics Map `m` and every column binding `k`, with the entry of `k` removed from `m`
or made nullable: if the validity computed against `m` is `CAN_HAVE_NULL_VALUES`, so is
the validity computed against the changed map; and if `k` is referenced by an argument
of some aggregate call, the validity computed against the changed map is
`CAN_HAVE_NULL_VALUES`. -/
theorem distinct_validity_monotone (m : StatisticsMap) (k : ColumnBinding)
    (aggr : LogicalAggregate) :
    ((distinctValidityAgainst m aggr = .CAN_HAVE_NULL_VALUES →
        distinctValidityAgainst (m.erase k) aggr = .CAN_HAVE_NULL_VALUES) ∧
      (distinctValidityAgainst m aggr = .CAN_HAVE_NULL_VALUES →
        distinctValidityAgainst (m.makeNullable k) aggr = .CAN_HAVE_NULL_VALUES)) ∧
    ((∃ e ∈ aggr.expressions, ∃ a fn children flt,
        e = Expression.BoundAggregateExpression a fn children flt ∧
        ∃ c ∈ children, ∃ ca, c = Expression.BoundColumnRefExpression ca k) →
      distinctValidityAgainst (m.erase k) aggr = .CAN_HAVE_NULL_VALUES ∧
      distinctValidityAgainst (m.makeNullable k) aggr = .CAN_HAVE_NULL_VALUES) := by
  have herase := distinctValidityAgainst_of_weaker m (m.erase k) k aggr
    (fun b hb => by simp [StatisticsMap.erase, hb])
    (fun s hs => by simp [StatisticsMap.erase] at hs)
  have hnullable := distinctValidityAgainst_of_weaker m (m.makeNullable k) k aggr
    (fun b hb => by simp [StatisticsMap.makeNullable, hb])
    (fun s hs => by
      simp only [StatisticsMap.makeNullable, if_true] at hs
      cases hm : m k with
      | none => rw [hm] at hs; exact Option.noConfusion hs
      | some entry =>
        cases entry with
        | none =>
          rw [hm] at hs
          simp at hs
        | some s0 =>
          rw [hm] at hs
          simp only [Option.map_some', Option.some.injEq] at hs
          rw [← hs]
          rfl)
  exact ⟨⟨herase.1, hnullable.1⟩, fun href => ⟨herase.2 href, hnullable.2 href⟩⟩

/-- Witness of C18: `sum(x)` is `CANNOT_HAVE_NULL_VALUES` against a map with non-null
statistics for `x`, and `CAN_HAVE_NULL_VALUES` once the entry of `x` is removed or made
nullable. -/
theorem distinct_validity_monotone_witness :
    distinctValidityAgainst sampleMap sumOverColumn = .CANNOT_HAVE_NULL_VALUES ∧
    distinctValidityAgainst (sampleMap.erase ⟨0, 0⟩) sumOverColumn = .CAN_HAVE_NULL_VALUES ∧
    distinctValidityAgainst (sampleMap.makeNullable ⟨0, 0⟩) sumOverColumn
      = .CAN_HAVE_NULL_VALUES :=
  ⟨rfl, (distinct_validity_monotone sampleMap ⟨0, 0⟩ sumOverColumn).2
    ⟨_, List.mem_singleton.mpr rfl, "sum(x)", "sum",
      [.BoundColumnRefExpression "x" ⟨0, 0⟩], none, rfl, _, List.mem_singleton.mpr rfl,
      "x", rfl⟩⟩

/-- The validity the handler stores is the validity computed against the Statistics Map
the handler leaves. -/
theorem PropagateStatistics_distinct_validity_against (ext : Collaborators)
    (sp : StatisticsPropagator) (aggr : LogicalAggregate) :
    (PropagateStatistics ext sp aggr).aggr.distinct_validity
      = distinctValidityAgainst (PropagateStatistics ext sp aggr).propagator.statistics_map
          aggr := by
  rw [PropagateStatistics_aggr, PropagateStatistics_statistics_map,
    propagateStepA_distinct_validity]
  rfl

end DuckDB
